import Mathlib

/-!
Verification of the Hilbert-system proof generator (`formal_proof_printer.py`).

Formulas are opaque strings in the source; we embed them as `List Char`.
The search engine (`find_all_proofs`) is embedded as a family of pure
functions: axiom instantiation (`makeLayer1`), one layer extension
(`buildLayer`), the bounded search loop (`searchLoop`), the theorem
minimizer (`bestProofs`) and the final sort (`finalSort`).  The engine is
parametric in the formula basis, exactly as the spec's configuration
section describes; the source's fixed configuration is `WFF_BASIS` /
`MAX_LENGTH` below.
-/

set_option maxHeartbeats 2000000

namespace HilbertProof

/-- A formula is an immutable piece of text (the source stores Python `str`). -/
abbrev Formula := List Char

/-- Python regex word characters, restricted to the alphabet this program
uses (ASCII letters, digits, underscore; the other characters occurring in
formulas — parentheses, space, `→`, `¬` — are not word characters, in
Python's `\w` sense nor here). -/
def isWordChar (c : Char) : Bool := c.isAlphanum || c == '_'

/-- Whether the next character of the remaining input is a word character
(used for the right-hand `\b` word-boundary test of `re.sub`). -/
def nextWord : List Char → Bool
  | [] => false
  | d :: _ => isWordChar d

/-- Embedding of `re.sub(r'\b' + var + r'\b', wff, formula)` for a
single-character variable `v`: scan left to right, replacing every
occurrence of `v` that has a word boundary on both sides.  The boolean
argument records whether the previous character of the original string was
a word character (string start counts as a boundary); as in `re.sub`,
scanning continues in the original string after a replacement. -/
def replTok (v : Char) (w : List Char) : Bool → List Char → List Char
  | _, [] => []
  | p, c :: rest =>
    if c == v && !p && !nextWord rest then
      w ++ replTok v w (isWordChar c) rest
    else
      c :: replTok v w (isWordChar c) rest

/-- Whether the string contains a whole-token occurrence of the
single-character variable `v` (same boundary discipline as `replTok`;
the boolean argument is the previous-character-is-word-character state). -/
def hasTok (v : Char) : Bool → List Char → Bool
  | _, [] => false
  | p, c :: rest =>
    (c == v && !p && !nextWord rest) || hasTok v (isWordChar c) rest

/-- The previous-character state after scanning a string, starting from
state `p`. -/
def wordEnd (p : Bool) : List Char → Bool
  | [] => p
  | c :: rest => wordEnd (isWordChar c) rest

/-- Source `substitute(template, sub_dict)`: replace each variable
in turn by its assigned formula, word-boundary aware.  The source iterates
the keys sorted by length, longest first; all keys here are single capital
letters, and Python's sort is stable, so that order is the insertion order
of `sub_dict`, i.e. the schema's variable list order — which is the order
of the association list `subs`. -/
def substitute (template : List Char) (subs : List (Char × List Char)) : List Char :=
  subs.foldl (fun f kv => replTok kv.1 kv.2 false f) template

/-- Source `apply_mp(p, p_implies_q)`: if `p_implies_q` starts
with the literal text `"(" + p + " → "` and ends with `")"`, return the
text strictly between them, else `none`.  (Python `s[l:-1]` is
drop-`l`-then-drop-last.) -/
def apply_mp (p p_implies_q : List Char) : Option (List Char) :=
  let expected_form := '(' :: p ++ [' ', '→', ' ']
  if expected_form.isPrefixOf p_implies_q && (p_implies_q.getLast? == some ')') then
    some ((p_implies_q.drop expected_form.length).dropLast)
  else
    none

/-- Source `get_proof_complexity(steps)`: sum of the lengths of
all formulas in the proof. -/
def get_proof_complexity (steps : List Formula) : Nat :=
  (steps.map List.length).sum

/-- A proof: parallel sequences of step formulas and justification texts
(the source stores a pair of tuples). -/
structure Proof where
  steps : List Formula
  justs : List (List Char)
deriving DecidableEq, Repr

/-- The three axiom templates of the source (`AXIOM_TEMPLATES`): name,
template text, ordered variable list.  Python dict iteration follows
insertion order. -/
def AXIOM_TEMPLATES : List (List Char × List Char × List Char) :=
  [("A1".data, "(A → (B → A))".data, ['A', 'B']),
   ("A2".data, "((A → (B → C)) → ((A → B) → (A → C)))".data, ['A', 'B', 'C']),
   ("A3".data, "((¬B → ¬A) → (A → B))".data, ['A', 'B'])]

/-- The source's curated formula basis `WFF_BASIS`. -/
def WFF_BASIS : List Formula :=
  ["a".data, "b".data, "(¬a)".data, "(¬b)".data, "(a → a)".data,
   "(a → b)".data, "(¬(¬a))".data, "((¬a) → (¬b))".data, "((¬b) → (¬a))".data]

/-- The source's search-depth bound `MAX_LENGTH`. -/
def MAX_LENGTH : Nat := 5

/-- Embedding of `itertools.product(basis, repeat=n)`: all ordered `n`-tuples of basis
formulas, leftmost position varying slowest. -/
def subCombos (basis : List Formula) : Nat → List (List Formula)
  | 0 => [[]]
  | n + 1 => basis.flatMap (fun w => (subCombos basis n).map (fun c => w :: c))

/-- The justification text of an axiom instantiation:
`f"{name} [{', '.join(f'{k}={v}' ...)}]"`. -/
def mkJust (name : List Char) (subs : List (Char × List Char)) : List Char :=
  name ++ " [".data ++
    (List.intercalate ", ".data (subs.map (fun kv => kv.1 :: '=' :: kv.2))) ++ "]".data

/-- The justification text of a Modus-Ponens step: `f"MP ({i+1},{j+1})"`
(the arguments here are already the 1-indexed step numbers). -/
def mpJust (a b : Nat) : List Char :=
  "MP (".data ++ (Nat.repr a).data ++ ",".data ++ (Nat.repr b).data ++ ")".data

/-- The state while one layer is filled: its proof list, the set of step
sequences already seen in this layer (a Python `set`, embedded as the list
of members in insertion order), and the running global proof counter. -/
structure LayerState where
  proofs : List Proof
  seen : List (List Formula)
  count : Nat
deriving DecidableEq, Repr

/-- One candidate offered to a layer: append it only when its full step
sequence is new, and bump the total count exactly then (the shared
accept-or-skip code pattern of the source's three insertion sites). -/
def addIfNew (st : LayerState) (p : Proof) : LayerState :=
  if p.steps ∈ st.seen then st
  else { proofs := st.proofs ++ [p], seen := st.seen ++ [p.steps], count := st.count + 1 }

/-- All length-1 proof candidates, one per (schema, assignment) pair, in
the source's enumeration order. -/
def axiomCandidates (basis : List Formula) : List Proof :=
  AXIOM_TEMPLATES.flatMap (fun nt =>
    (subCombos basis nt.2.2.length).map (fun combo =>
      { steps := [substitute nt.2.1 (nt.2.2.zip combo)],
        justs := [mkJust nt.1 (nt.2.2.zip combo)] }))

/-- Step 1 of `find_all_proofs`: generate all length-1 proofs, with
step-sequence deduplication, starting the proof counter at 0. -/
def makeLayer1 (basis : List Formula) : LayerState :=
  (axiomCandidates basis).foldl addIfNew ⟨[], [], 0⟩

/-- Option A of the layer transition: extend a proof by each length-1
axiom-instance proof (its single step and justification). -/
def optionA (axioms : List Proof) (p : Proof) : List Proof :=
  axioms.map (fun a =>
    { steps := p.steps ++ [a.steps.headI], justs := p.justs ++ [a.justs.headI] })

/-- Option B of the layer transition: for every ordered pair of distinct
step indices `(i, j)` of the proof, try Modus Ponens with `p = steps[i]`
and `p_implies_q = steps[j]`; the source guards the result with Python
truthiness (`if q:`), so a `none` result *and* an empty-string result are
both skipped. -/
def optionB (p : Proof) : List Proof :=
  (List.range p.steps.length).flatMap (fun i =>
    (List.range p.steps.length).filterMap (fun j =>
      if i = j then none
      else
        match apply_mp (p.steps.getD i []) (p.steps.getD j []) with
        | none => none
        | some q =>
          if q = [] then none
          else some { steps := p.steps ++ [q], justs := p.justs ++ [mpJust (i + 1) (j + 1)] }))

/-- Extend one proof of the previous layer into the layer under
construction: all Option A candidates (in order), then all Option B
candidates, each through the dedup check. -/
def extendOne (axioms : List Proof) (st : LayerState) (p : Proof) : LayerState :=
  (optionA axioms p ++ optionB p).foldl addIfNew st

/-- Build layer `k` from the full layer `k−1`, threading the global proof
counter; the layer's seen-set starts empty. -/
def buildLayer (axioms prev : List Proof) (count : Nat) : LayerState :=
  prev.foldl (extendOne axioms) ⟨[], [], count⟩

/-- The `for k in range(2, MAX_LENGTH + 1)` loop of `find_all_proofs`:
`fuel` is the number of remaining iterations (`MAX_LENGTH − 1` initially).
Returns the list of layers built (layer 2 first) and the final proof
counter.  The loop breaks before building when the previous layer is
empty, and after building when the new layer came out empty (that empty
layer is still recorded, as `proofs_at_len[k]` is in the source). -/
def searchLoop (axioms : List Proof) : Nat → List Proof → Nat → List (List Proof) × Nat
  | 0, _, count => ([], count)
  | fuel + 1, prev, count =>
    if prev = [] then ([], count)
    else
      let st := buildLayer axioms prev count
      if st.proofs = [] then ([st.proofs], st.count)
      else
        let r := searchLoop axioms fuel st.proofs st.count
        (st.proofs :: r.1, r.2)

/-- The whole proof search: layer 1, then the growth loop.  Returns every
layer (layer 1 at index 0, so layer `k` is at index `k−1`) and the total
proof count. -/
def runLayers (basis : List Formula) (maxLen : Nat) : List (List Proof) × Nat :=
  let l1 := makeLayer1 basis
  let r := searchLoop l1.proofs (maxLen - 1) l1.proofs l1.count
  (l1.proofs :: r.1, r.2)

/-- Source `all_proofs`: the union of the layers of length 3 and
up, in layer order. -/
def allProofsFrom3 (layers : List (List Proof)) : List Proof :=
  (layers.drop 2).flatten

/-- Whether a proof uses Modus Ponens: some justification starts with the
literal text `"MP"`. -/
def uses_mp (p : Proof) : Bool :=
  p.justs.any (fun j => "MP".data.isPrefixOf j)

/-- The theorem a proof proves: its final step formula (`steps[-1]`). -/
def theoremOf (p : Proof) : Formula := p.steps.getLastD []

/-- Lookup in the theorem-to-best-proof mapping (a Python dict, embedded
as an association list in insertion order). -/
def lookupThm (t : Formula) : List (Formula × Proof) → Option Proof
  | [] => none
  | e :: rest => if e.1 = t then some e.2 else lookupThm t rest

/-- Overwrite the value stored for a key, keeping its position (a Python
dict update of an existing key). -/
def setThm (t : Formula) (p : Proof) : List (Formula × Proof) → List (Formula × Proof)
  | [] => []
  | e :: rest => if e.1 = t then (t, p) :: rest else e :: setThm t p rest

/-- One step of the minimizer: the first proof found for a theorem is
stored; a later proof replaces it only when its complexity score is
strictly lower, or tied with strictly fewer lines. -/
def updateBest (m : List (Formula × Proof)) (p : Proof) : List (Formula × Proof) :=
  match lookupThm (theoremOf p) m with
  | none => m ++ [(theoremOf p, p)]
  | some b =>
    if get_proof_complexity p.steps < get_proof_complexity b.steps ∨
       (get_proof_complexity p.steps = get_proof_complexity b.steps ∧
        p.steps.length < b.steps.length) then
      setThm (theoremOf p) p m
    else m

/-- Source `best_proofs_for_theorem`, over a candidate list. -/
def bestProofs (cands : List Proof) : List (Formula × Proof) :=
  cands.foldl updateBest []

/-- The MP-using candidates drawn from the layers of length ≥ 3. -/
def proofs_with_mp (layers : List (List Proof)) : List Proof :=
  (allProofsFrom3 layers).filter uses_mp

/-- String comparison, as Python compares `str` values: lexicographic by
code point, shorter string first on a tie. -/
def strLe : List Char → List Char → Bool
  | [], _ => true
  | _ :: _, [] => false
  | c :: cs, d :: ds => if c < d then true else if d < c then false else strLe cs ds

/-- The sort key order of the final report:
`key=lambda p: (len(p[0]), p[0][-1])` — step count, then theorem text. -/
def keyLe (p q : Proof) : Prop :=
  p.steps.length < q.steps.length ∨
    (p.steps.length = q.steps.length ∧ strLe (theoremOf p) (theoremOf q) = true)

instance : DecidableRel keyLe := fun p q => by unfold keyLe; exact inferInstance

/-- Python's `sorted` (a comparison sort by the key above; the embedded
algorithm is insertion sort, which realizes the same specification). -/
def finalSort (l : List Proof) : List Proof := List.insertionSort keyLe l

/-- Source `final_proofs`: the minimized best proofs, sorted by
(step count, theorem text). -/
def final_proofs (layers : List (List Proof)) : List Proof :=
  finalSort ((bestProofs (proofs_with_mp layers)).map Prod.snd)

/-- Spec-side description of step-sequence deduplication, written from the
spec's words: the first derivation encountered for a step sequence is the
one kept, every later proof with an identical step sequence is dropped. -/
def specKeepFirst : List Proof → List Proof
  | [] => []
  | p :: rest => p :: specKeepFirst (rest.filter (fun q => decide (q.steps ≠ p.steps)))
termination_by l => l.length
decreasing_by
  simp only [List.length_cons]
  exact Nat.lt_succ_of_le (List.length_filter_le _ _)

/-- Soundness of one step of a proof, as recorded by its justification:
either it is an axiom instantiation (the formula is the substitution of
the named schema under the recorded assignment), or it is the exact
Modus-Ponens consequent of two earlier, distinct steps, the 1-indexed
pair recorded in the justification. -/
def StepSound (steps : List Formula) (justs : List (List Char)) (n : Nat) : Prop :=
  (∃ name template vars combo,
    (name, template, vars) ∈ AXIOM_TEMPLATES ∧
    steps.getD n [] = substitute template (vars.zip combo) ∧
    justs.getD n [] = mkJust name (vars.zip combo)) ∨
  (∃ a b, 1 ≤ a ∧ a ≤ n ∧ 1 ≤ b ∧ b ≤ n ∧ a ≠ b ∧
    apply_mp (steps.getD (a - 1) []) (steps.getD (b - 1) []) = some (steps.getD n []) ∧
    justs.getD n [] = mpJust a b)

/-- A sound proof: justifications parallel the steps, and every step is
justified as recorded. -/
def SoundProof (p : Proof) : Prop :=
  p.justs.length = p.steps.length ∧ ∀ n < p.steps.length, StepSound p.steps p.justs n

/-- The invariant tying a layer's seen-set to its proof list, together
with distinctness of its step sequences. -/
def LayerInv (st : LayerState) : Prop :=
  st.seen = st.proofs.map (·.steps) ∧
    st.proofs.Pairwise (fun a b => a.steps ≠ b.steps)

/-- Proof `b` is at least as good as proof `p` in the minimizer's order:
complexity no larger, and on a complexity tie, no more steps. -/
def BestLe (b p : Proof) : Prop :=
  get_proof_complexity b.steps ≤ get_proof_complexity p.steps ∧
    (get_proof_complexity b.steps = get_proof_complexity p.steps →
      b.steps.length ≤ p.steps.length)

/-- A template skeleton for reasoning about word-boundary substitution: a
final literal, or a literal followed by a schema variable and a further
skeleton.  Each of the three axiom templates flattens from such a skeleton
whose literal segments are nonempty and made of non-word characters only
(parentheses, spaces, `→`, `¬`). -/
inductive Pat
  | done (s : List Char)
  | seg (s : List Char) (v : Char) (rest : Pat)

/-- Flatten a skeleton under an assignment of texts to its variables. -/
def flattenP (σ : Char → List Char) : Pat → List Char
  | Pat.done s => s
  | Pat.seg s v rest => s ++ σ v ++ flattenP σ rest

/-- A literal segment in good standing: nonempty, no word characters. -/
def litOK (s : List Char) : Bool := !s.isEmpty && s.all (fun c => !isWordChar c)

/-- All literal segments of the skeleton in good standing. -/
def patOK : Pat → Bool
  | Pat.done s => litOK s
  | Pat.seg s _ rest => litOK s && patOK rest

/-- The variable occurrences of a skeleton, in order. -/
def patVars : Pat → List Char
  | Pat.done _ => []
  | Pat.seg _ v rest => v :: patVars rest

/-- Skeleton of schema A1, `(A → (B → A))`. -/
def A1pat : Pat :=
  Pat.seg "(".data 'A' (Pat.seg " → (".data 'B' (Pat.seg " → ".data 'A'
    (Pat.done "))".data)))

/-- Skeleton of schema A2, `((A → (B → C)) → ((A → B) → (A → C)))`. -/
def A2pat : Pat :=
  Pat.seg "((".data 'A' (Pat.seg " → (".data 'B' (Pat.seg " → ".data 'C'
    (Pat.seg ")) → ((".data 'A' (Pat.seg " → ".data 'B' (Pat.seg ") → (".data 'A'
      (Pat.seg " → ".data 'C' (Pat.done ")))".data)))))))

/-- Skeleton of schema A3, `((¬B → ¬A) → (A → B))`. -/
def A3pat : Pat :=
  Pat.seg "((¬".data 'B' (Pat.seg " → ¬".data 'A' (Pat.seg ") → (".data 'A'
    (Pat.seg " → ".data 'B' (Pat.done "))".data))))

/-- No whole-token occurrence of any of the three schema variables. -/
def noSchemaTok (s : List Char) : Prop :=
  hasTok 'A' false s = false ∧ hasTok 'B' false s = false ∧ hasTok 'C' false s = false

/-- A length-1 axiom-instance proof: a single step carrying exactly the
substitution of one of the three schemas under a recorded assignment,
with the matching justification text. -/
def AxProof (a : Proof) : Prop :=
  ∃ name template vars combo,
    (name, template, vars) ∈ AXIOM_TEMPLATES ∧
    a.steps = [substitute template (vars.zip combo)] ∧
    a.justs = [mkJust name (vars.zip combo)]

-- ### Basic list helpers

theorem isPrefixOf_append (l t : List Char) : l.isPrefixOf (l ++ t) = true := by
  induction l with
  | nil => simp [List.isPrefixOf]
  | cons c cs ih => simp [List.isPrefixOf, ih]

theorem getD_append_lt {α : Type} (l l' : List α) (d : α) (n : Nat)
    (h : n < l.length) : (l ++ l').getD n d = l.getD n d := by
  induction l generalizing n with
  | nil => simp at h
  | cons a as ih =>
    cases n with
    | zero => rfl
    | succ m =>
      simp only [List.cons_append, List.getD_cons_succ]
      exact ih m (Nat.lt_of_succ_lt_succ (by simp only [List.length_cons] at h; exact h))

theorem getD_append_len {α : Type} (l : List α) (x : α) (d : α) :
    (l ++ [x]).getD l.length d = x := by
  induction l with
  | nil => rfl
  | cons a as ih => simp only [List.cons_append, List.length_cons, List.getD_cons_succ]; exact ih

-- ### Claim C1: the Modus-Ponens engine

/-- **C1.** For all formulas `p`, `q`, applying Modus Ponens to
`(p, "(" ++ p ++ " → " ++ q ++ ")")` returns exactly `q`; and for any
formula that does not both start with the literal text `"(" ++ p ++ " → "`
and end with `")"`, it returns `none` (the not-applicable result) rather
than failing. -/
theorem C1_apply_mp_exact :
    (∀ p q : List Char,
      apply_mp p ('(' :: p ++ [' ', '→', ' '] ++ q ++ [')']) = some q) ∧
    (∀ p s : List Char,
      ¬ ((('(' :: p ++ [' ', '→', ' ']).isPrefixOf s = true) ∧ s.getLast? = some ')') →
      apply_mp p s = none) := by
  constructor
  · intro p q
    unfold apply_mp
    have hpre : ('(' :: p ++ [' ', '→', ' ']).isPrefixOf
        ('(' :: p ++ [' ', '→', ' '] ++ q ++ [')']) = true := by
      have h0 := isPrefixOf_append ('(' :: p ++ [' ', '→', ' ']) (q ++ [')'])
      simp only [List.append_assoc] at h0 ⊢
      exact h0
    have hlast : ('(' :: p ++ [' ', '→', ' '] ++ q ++ [')']).getLast? = some ')' := by
      rw [show '(' :: p ++ [' ', '→', ' '] ++ q ++ [')'] =
        (('(' :: p ++ [' ', '→', ' '] ++ q) ++ [')']) by simp [List.append_assoc]]
      exact List.getLast?_concat _
    have hdrop : (('(' :: p ++ [' ', '→', ' '] ++ q ++ [')']).drop
        ('(' :: p ++ [' ', '→', ' ']).length) = q ++ [')'] := by
      rw [show '(' :: p ++ [' ', '→', ' '] ++ q ++ [')'] =
        (('(' :: p ++ [' ', '→', ' ']) ++ (q ++ [')'])) by simp [List.append_assoc]]
      exact List.drop_left _ _
    simp only [hpre, hlast, beq_self_eq_true, Bool.and_true, if_pos, Bool.and_self]
    rw [hdrop]
    simp
  · intro p s h
    unfold apply_mp
    rw [if_neg]
    intro hc
    rcases Bool.and_eq_true_iff.mp hc with ⟨h1, h2⟩
    exact h ⟨h1, by simp at h2; exact h2⟩

-- ### The dedup fold: decomposition lemmas

theorem addIfNew_pos {st : LayerState} {p : Proof} (h : p.steps ∈ st.seen) :
    addIfNew st p = st := by
  unfold addIfNew
  rw [if_pos h]

theorem addIfNew_neg {st : LayerState} {p : Proof} (h : p.steps ∉ st.seen) :
    addIfNew st p =
      { proofs := st.proofs ++ [p], seen := st.seen ++ [p.steps], count := st.count + 1 } := by
  unfold addIfNew
  rw [if_neg h]

theorem foldl_addIfNew_decomp (cands : List Proof) (st : LayerState) :
    ∃ added : List Proof,
      (cands.foldl addIfNew st).proofs = st.proofs ++ added ∧
      (cands.foldl addIfNew st).seen = st.seen ++ added.map (·.steps) ∧
      (cands.foldl addIfNew st).count = st.count + added.length ∧
      ∀ p ∈ added, p ∈ cands := by
  induction cands generalizing st with
  | nil => exact ⟨[], by simp⟩
  | cons p rest ih =>
    by_cases h : p.steps ∈ st.seen
    · obtain ⟨added, h1, h2, h3, h4⟩ := ih st
      refine ⟨added, ?_, ?_, ?_, ?_⟩
      · rw [List.foldl_cons, addIfNew_pos h, h1]
      · rw [List.foldl_cons, addIfNew_pos h, h2]
      · rw [List.foldl_cons, addIfNew_pos h, h3]
      · exact fun x hx => List.mem_cons_of_mem _ (h4 x hx)
    · obtain ⟨added, h1, h2, h3, h4⟩ := ih (addIfNew st p)
      refine ⟨p :: added, ?_, ?_, ?_, ?_⟩
      · rw [List.foldl_cons, h1, addIfNew_neg h]
        simp
      · rw [List.foldl_cons, h2, addIfNew_neg h]
        simp
      · rw [List.foldl_cons, h3, addIfNew_neg h]
        simp only [List.length_cons]
        omega
      · intro x hx
        rcases List.mem_cons.mp hx with rfl | hx
        · exact List.mem_cons_self _ _
        · exact List.mem_cons_of_mem _ (h4 x hx)

theorem mem_seen_foldl_addIfNew (cands : List Proof) (st : LayerState) (c : Proof)
    (hc : c ∈ cands) : c.steps ∈ (cands.foldl addIfNew st).seen := by
  induction cands generalizing st with
  | nil => cases hc
  | cons p rest ih =>
    rcases List.mem_cons.mp hc with rfl | hc
    · simp only [List.foldl_cons]
      obtain ⟨added, _, h2, _, _⟩ := foldl_addIfNew_decomp rest (addIfNew st c)
      rw [h2]
      apply List.mem_append_left
      by_cases h : c.steps ∈ st.seen
      · rw [addIfNew_pos h]; exact h
      · rw [addIfNew_neg h]; simp
    · simp only [List.foldl_cons]
      exact ih (addIfNew st p) hc

theorem layerInv_addIfNew {st : LayerState} (h : LayerInv st) (p : Proof) :
    LayerInv (addIfNew st p) := by
  obtain ⟨h1, h2⟩ := h
  by_cases hm : p.steps ∈ st.seen
  · rw [addIfNew_pos hm]
    exact ⟨h1, h2⟩
  · rw [addIfNew_neg hm]
    constructor
    · simp [h1]
    · simp only
      rw [List.pairwise_append]
      refine ⟨h2, List.pairwise_singleton _ _, ?_⟩
      intro a ha b hb
      rcases List.mem_singleton.mp hb with rfl
      intro heq
      exact hm (by rw [h1, ← heq]; exact List.mem_map_of_mem _ ha)

theorem layerInv_foldl_addIfNew (cands : List Proof) {st : LayerState} (h : LayerInv st) :
    LayerInv (cands.foldl addIfNew st) := by
  induction cands generalizing st with
  | nil => exact h
  | cons p rest ih => exact ih (layerInv_addIfNew h p)

theorem layerInv_foldl_extendOne (axioms prev : List Proof) {st : LayerState}
    (h : LayerInv st) : LayerInv (prev.foldl (extendOne axioms) st) := by
  induction prev generalizing st with
  | nil => exact h
  | cons p rest ih => exact ih (layerInv_foldl_addIfNew _ h)

theorem foldl_extendOne_decomp (axioms prev : List Proof) (st : LayerState) :
    ∃ added : List Proof,
      (prev.foldl (extendOne axioms) st).proofs = st.proofs ++ added ∧
      (prev.foldl (extendOne axioms) st).seen = st.seen ++ added.map (·.steps) ∧
      (prev.foldl (extendOne axioms) st).count = st.count + added.length ∧
      ∀ q ∈ added, ∃ p ∈ prev, q ∈ optionA axioms p ++ optionB p := by
  induction prev generalizing st with
  | nil => exact ⟨[], by simp⟩
  | cons p rest ih =>
    obtain ⟨a1, g1, g2, g3, g4⟩ := foldl_addIfNew_decomp (optionA axioms p ++ optionB p) st
    obtain ⟨a2, k1, k2, k3, k4⟩ := ih (extendOne axioms st p)
    unfold extendOne at k1 k2 k3
    refine ⟨a1 ++ a2, ?_, ?_, ?_, ?_⟩
    · rw [List.foldl_cons]
      unfold extendOne
      rw [k1, g1, List.append_assoc]
    · rw [List.foldl_cons]
      unfold extendOne
      rw [k2, g2, List.map_append, List.append_assoc]
    · rw [List.foldl_cons]
      unfold extendOne
      rw [k3, g3, List.length_append]
      omega
    · intro q hq
      rcases List.mem_append.mp hq with hq | hq
      · exact ⟨p, List.mem_cons_self _ _, g4 q hq⟩
      · obtain ⟨p', hp', hmem⟩ := k4 q hq
        exact ⟨p', List.mem_cons_of_mem _ hp', hmem⟩

theorem mem_seen_foldl_extendOne (axioms rest : List Proof) (st : LayerState)
    (P c : Proof) (hP : P ∈ rest) (hc : c ∈ optionA axioms P ++ optionB P) :
    c.steps ∈ (rest.foldl (extendOne axioms) st).seen := by
  induction rest generalizing st with
  | nil => cases hP
  | cons p tl ih =>
    rcases List.mem_cons.mp hP with rfl | hP
    · simp only [List.foldl_cons]
      obtain ⟨added, _, h2, _, _⟩ := foldl_extendOne_decomp axioms tl (extendOne axioms st P)
      rw [h2]
      exact List.mem_append_left _ (mem_seen_foldl_addIfNew _ _ _ hc)
    · simp only [List.foldl_cons]
      exact ih (extendOne axioms st p) hP

theorem mem_seen_buildLayer (axioms prev : List Proof) (count : Nat)
    (P c : Proof) (hP : P ∈ prev) (hc : c ∈ optionA axioms P ++ optionB P) :
    c.steps ∈ (buildLayer axioms prev count).seen :=
  mem_seen_foldl_extendOne axioms prev ⟨[], [], count⟩ P c hP hc

theorem layerInv_buildLayer (axioms prev : List Proof) (count : Nat) :
    LayerInv (buildLayer axioms prev count) :=
  layerInv_foldl_extendOne axioms prev ⟨by simp, List.Pairwise.nil⟩

theorem filter_notMem_concat (s : List (List Formula)) (x : List Formula) (l : List Proof) :
    l.filter (fun q => decide (q.steps ∉ s ++ [x])) =
      (l.filter (fun q => decide (q.steps ∉ s))).filter (fun q => decide (q.steps ≠ x)) := by
  induction l with
  | nil => rfl
  | cons a t iht =>
    by_cases h1 : a.steps ∈ s
    · rw [List.filter_cons_of_neg (by simp [List.mem_append, h1]),
        List.filter_cons_of_neg (by simp [h1])]
      exact iht
    · by_cases h2 : a.steps = x
      · rw [List.filter_cons_of_neg (by simp [List.mem_append, h2]),
          List.filter_cons_of_pos (by simp [h1]),
          List.filter_cons_of_neg (by simp [h2])]
        exact iht
      · rw [List.filter_cons_of_pos (by simp [List.mem_append, h1, h2]),
          List.filter_cons_of_pos (by simp [h1]),
          List.filter_cons_of_pos (by simp [h2])]
        rw [iht]

theorem foldl_addIfNew_keepFirst (cands : List Proof) (st : LayerState)
    (hinv : st.seen = st.proofs.map (·.steps)) :
    (cands.foldl addIfNew st).proofs =
      st.proofs ++ specKeepFirst (cands.filter (fun p => decide (p.steps ∉ st.seen))) := by
  induction cands generalizing st with
  | nil => simp [specKeepFirst]
  | cons p rest ih =>
    by_cases h : p.steps ∈ st.seen
    · rw [List.foldl_cons, addIfNew_pos h]
      rw [List.filter_cons_of_neg (by simp [h])]
      exact ih st hinv
    · rw [List.foldl_cons, addIfNew_neg h]
      have hinv' : (st.seen ++ [p.steps]) = (st.proofs ++ [p]).map (·.steps) := by
        simp [hinv]
      have := ih { proofs := st.proofs ++ [p], seen := st.seen ++ [p.steps],
                   count := st.count + 1 } hinv'
      rw [this]
      rw [List.filter_cons_of_pos (by simp [h])]
      rw [specKeepFirst]
      simp only [List.append_assoc, List.singleton_append]
      congr 2
      exact congrArg specKeepFirst (filter_notMem_concat st.seen p.steps rest)

-- ### Claim C4: step-sequence deduplication

/-- **C4.** Step-sequence deduplication is idempotent and
justification-blind: offering a proof whose step sequence is already that
of an accepted proof of the layer leaves the proof list, the seen-set and
the total count unchanged (the whole state is equal); offering two proofs
with the same step sequence and any justifications accepts at most the
first; a full layer fold keeps exactly the first derivation encountered
for each step sequence (`specKeepFirst`, written from the spec's words);
and consequently no built layer contains two proofs with identical step
sequences. -/
theorem C4_dedup_idempotent :
    (∀ (st : LayerState) (p : Proof), st.seen = st.proofs.map (·.steps) →
        p.steps ∈ st.proofs.map (·.steps) → addIfNew st p = st) ∧
    (∀ (st : LayerState) (p p' : Proof), p.steps = p'.steps →
        addIfNew (addIfNew st p) p' = addIfNew st p) ∧
    (∀ (cands : List Proof) (count : Nat),
        (cands.foldl addIfNew ⟨[], [], count⟩).proofs = specKeepFirst cands) ∧
    (∀ (axioms prev : List Proof) (count : Nat),
        ((buildLayer axioms prev count).proofs).Pairwise (fun a b => a.steps ≠ b.steps)) := by
  refine ⟨?_, ?_, ?_, ?_⟩
  · intro st p hinv hmem
    exact addIfNew_pos (by rw [hinv]; exact hmem)
  · intro st p p' hpp
    by_cases h : p.steps ∈ st.seen
    · rw [addIfNew_pos h, addIfNew_pos (by rw [← hpp]; exact h)]
    · rw [addIfNew_neg h]
      exact addIfNew_pos (by rw [← hpp]; simp)
  · intro cands count
    have := foldl_addIfNew_keepFirst cands ⟨[], [], count⟩ (by simp)
    rw [this]
    simp only [List.nil_append]
    congr 1
    have : ∀ l : List Proof, l.filter (fun p => decide (p.steps ∉ ([] : List (List Formula)))) = l := by
      intro l
      induction l with
      | nil => rfl
      | cons a t iht => simp [List.filter_cons, iht]
    exact this cands
  · intro axioms prev count
    exact (layerInv_buildLayer axioms prev count).2

/-- Witness for C4 at a concrete state: a second proof with the same step
sequence but a different justification does not change the state. -/
theorem C4_dedup_idempotent_witness :
    addIfNew (addIfNew ⟨[], [], 0⟩ ⟨[['a']], [['J']]⟩) ⟨[['a']], [['K']]⟩ =
      addIfNew ⟨[], [], 0⟩ ⟨[['a']], [['J']]⟩ :=
  C4_dedup_idempotent.2.1 ⟨[], [], 0⟩ ⟨[['a']], [['J']]⟩ ⟨[['a']], [['K']]⟩ rfl

-- ### Claim C2: the Modus-Ponens layer transition

theorem mem_optionB {P : Proof} {i j : Nat} {q : List Char}
    (hi : i < P.steps.length) (hj : j < P.steps.length) (hij : i ≠ j)
    (hmp : apply_mp (P.steps.getD i []) (P.steps.getD j []) = some q) (hq : q ≠ []) :
    ({ steps := P.steps ++ [q], justs := P.justs ++ [mpJust (i + 1) (j + 1)] } : Proof)
      ∈ optionB P := by
  unfold optionB
  rw [List.mem_flatMap]
  refine ⟨i, List.mem_range.mpr hi, ?_⟩
  rw [List.mem_filterMap]
  refine ⟨j, List.mem_range.mpr hj, ?_⟩
  rw [if_neg hij]
  simp only [hmp]
  rw [if_neg hq]

/-- The proof exhibiting the gap in C2: Modus Ponens on
`("a", "(a → )")` succeeds with the empty consequent. -/
def mpGapProof : Proof := ⟨["a".data, "(a → )".data], ["X1".data, "X2".data]⟩

/-- **C2, counterexample.**  For the two-step proof `mpGapProof`, the
Modus-Ponens engine applied to `(step[0], step[1])` succeeds, returning
the (empty) consequent; the step sequence was never seen in the layer
being built (the layer comes out entirely empty) — yet the extension is
not accepted: the source guards the result with Python truthiness
(`if q:`), which drops an empty-string consequent. -/
theorem C2_mp_extension_counterexample :
    apply_mp (mpGapProof.steps.getD 0 []) (mpGapProof.steps.getD 1 []) = some [] ∧
    (0 : Nat) ≠ 1 ∧
    (buildLayer [] [mpGapProof] 0).proofs = [] := by
  refine ⟨by decide, by decide, by decide⟩

/-- **C2, amended.**  Whenever the Modus-Ponens engine applied to
`(step[i], step[j])` (`i ≠ j`, both in range) succeeds *with a nonempty
consequent* `q`, the extended step sequence `P.steps ++ [q]` is accepted
into layer k: it appears among the layer's step sequences (carried by the
first derivation that reached it, per the dedup rule). -/
theorem C2_mp_extension :
    ∀ (axioms prev : List Proof) (count : Nat) (P : Proof) (i j : Nat) (q : List Char),
      P ∈ prev → i < P.steps.length → j < P.steps.length → i ≠ j →
      apply_mp (P.steps.getD i []) (P.steps.getD j []) = some q → q ≠ [] →
      (P.steps ++ [q]) ∈ (buildLayer axioms prev count).proofs.map (·.steps) := by
  intro axioms prev count P i j q hP hi hj hij hmp hq
  have hc : ({ steps := P.steps ++ [q], justs := P.justs ++ [mpJust (i + 1) (j + 1)] } : Proof)
      ∈ optionA axioms P ++ optionB P :=
    List.mem_append_right _ (mem_optionB hi hj hij hmp hq)
  have hseen := mem_seen_buildLayer axioms prev count P _ hP hc
  have hinv := (layerInv_buildLayer axioms prev count).1
  rw [hinv] at hseen
  exact hseen

/-- Witness for C2 (amended) at a concrete two-step proof: extending
`["a", "(a → b)"]` by MP (1,2) lands `"b"` in the layer. -/
theorem C2_mp_extension_witness :
    (["a".data, "(a → b)".data] ++ ["b".data]) ∈
      (buildLayer [] [⟨["a".data, "(a → b)".data], ["Y1".data, "Y2".data]⟩] 0).proofs.map
        (·.steps) :=
  C2_mp_extension [] [⟨["a".data, "(a → b)".data], ["Y1".data, "Y2".data]⟩] 0
    ⟨["a".data, "(a → b)".data], ["Y1".data, "Y2".data]⟩ 0 1 "b".data
    (by decide) (by decide) (by decide) (by decide) (by decide) (by decide)

-- ### Claim C5: the prefix invariant

theorem shape_of_mem_ext {axioms : List Proof} {p q : Proof}
    (h : q ∈ optionA axioms p ++ optionB p) :
    ∃ s jt, q.steps = p.steps ++ [s] ∧ q.justs = p.justs ++ [jt] := by
  rcases List.mem_append.mp h with h | h
  · unfold optionA at h
    rcases List.mem_map.mp h with ⟨a, _, rfl⟩
    exact ⟨_, _, rfl, rfl⟩
  · unfold optionB at h
    rcases List.mem_flatMap.mp h with ⟨i, _, h⟩
    rcases List.mem_filterMap.mp h with ⟨j, _, hj⟩
    by_cases hij : i = j
    · rw [if_pos hij] at hj
      cases hj
    · rw [if_neg hij] at hj
      cases hmp : apply_mp (p.steps.getD i []) (p.steps.getD j []) with
      | none =>
        simp only [hmp] at hj
        cases hj
      | some q' =>
        simp only [hmp] at hj
        by_cases hq : q' = []
        · rw [if_pos hq] at hj
          cases hj
        · rw [if_neg hq] at hj
          have hqq := Option.some.inj hj
          rw [← hqq]
          exact ⟨_, _, rfl, rfl⟩

theorem mem_buildLayer_src {axioms prev : List Proof} {count : Nat} {q : Proof}
    (h : q ∈ (buildLayer axioms prev count).proofs) :
    ∃ p ∈ prev, q ∈ optionA axioms p ++ optionB p := by
  unfold buildLayer at h
  obtain ⟨added, h1, _, _, h4⟩ := foldl_extendOne_decomp axioms prev ⟨[], [], count⟩
  rw [h1] at h
  simp only [List.nil_append] at h
  exact h4 q h

theorem searchLoop_chain (axioms : List Proof) (fuel : Nat) :
    ∀ (prev : List Proof) (count : Nat),
      (∀ q ∈ ((searchLoop axioms fuel prev count).1).getD 0 [],
          ∃ p ∈ prev, q ∈ optionA axioms p ++ optionB p) ∧
      (∀ i, i + 1 < ((searchLoop axioms fuel prev count).1).length →
          ∀ q ∈ ((searchLoop axioms fuel prev count).1).getD (i + 1) [],
            ∃ p ∈ ((searchLoop axioms fuel prev count).1).getD i [],
              q ∈ optionA axioms p ++ optionB p) := by
  induction fuel with
  | zero =>
    intro prev count
    constructor
    · intro q hq
      simp [searchLoop] at hq
    · intro i hi
      simp [searchLoop] at hi
  | succ fuel ih =>
    intro prev count
    by_cases hprev : prev = []
    · constructor
      · intro q hq
        simp [searchLoop, hprev] at hq
      · intro i hi
        simp [searchLoop, hprev] at hi
    · by_cases hst : (buildLayer axioms prev count).proofs = []
      · constructor
        · intro q hq
          simp only [searchLoop, if_neg hprev, if_pos hst] at hq
          rw [hst] at hq
          simp at hq
        · intro i hi
          simp only [searchLoop, if_neg hprev, if_pos hst] at hi
          simp at hi
      · have hunf : searchLoop axioms (fuel + 1) prev count =
            ((buildLayer axioms prev count).proofs ::
              (searchLoop axioms fuel (buildLayer axioms prev count).proofs
                (buildLayer axioms prev count).count).1,
             (searchLoop axioms fuel (buildLayer axioms prev count).proofs
                (buildLayer axioms prev count).count).2) := by
          simp only [searchLoop, if_neg hprev, if_neg hst]
        constructor
        · intro q hq
          rw [hunf] at hq
          simp only [List.getD_cons_zero] at hq
          exact mem_buildLayer_src hq
        · intro i hi q hq
          rw [hunf] at hi hq
          rw [hunf]
          cases i with
          | zero =>
            simp only [List.getD_cons_succ, List.getD_cons_zero] at hq ⊢
            exact (ih _ _).1 q hq
          | succ i' =>
            simp only [List.getD_cons_succ] at hq ⊢
            simp only [List.length_cons] at hi
            exact (ih _ _).2 i' (by omega) q hq

/-- **C5.** Prefix invariant: every proof accepted into layer k (k ≥ 2)
consists of exactly some proof accepted into layer k−1 followed by one
appended (formula, justification) pair — steps are never reordered,
edited or removed.  (`(runLayers …).1` lists the layers with layer k at
index k−1.) -/
theorem C5_prefix_invariant :
    ∀ (basis : List Formula) (maxLen : Nat) (i : Nat) (q : Proof),
      i + 1 < ((runLayers basis maxLen).1).length →
      q ∈ ((runLayers basis maxLen).1).getD (i + 1) [] →
      ∃ p ∈ ((runLayers basis maxLen).1).getD i [], ∃ s jt,
        q.steps = p.steps ++ [s] ∧ q.justs = p.justs ++ [jt] := by
  intro basis maxLen i q hi hq
  have hrl : (runLayers basis maxLen).1 =
      (makeLayer1 basis).proofs ::
        (searchLoop (makeLayer1 basis).proofs (maxLen - 1) (makeLayer1 basis).proofs
          (makeLayer1 basis).count).1 := by
    simp only [runLayers]
  rw [hrl] at hi hq
  rw [hrl]
  cases i with
  | zero =>
    simp only [List.getD_cons_succ, List.getD_cons_zero] at hq ⊢
    obtain ⟨p, hp, hmem⟩ := (searchLoop_chain _ _ _ _).1 q hq
    obtain ⟨s, jt, h1, h2⟩ := shape_of_mem_ext hmem
    exact ⟨p, hp, s, jt, h1, h2⟩
  | succ i' =>
    simp only [List.getD_cons_succ] at hq ⊢
    simp only [List.length_cons] at hi
    obtain ⟨p, hp, hmem⟩ := (searchLoop_chain _ _ _ _).2 i' (by omega) q hq
    obtain ⟨s, jt, h1, h2⟩ := shape_of_mem_ext hmem
    exact ⟨p, hp, s, jt, h1, h2⟩

/-- Witness for C5: with basis `{a}` the first length-2 proof is the first
length-1 proof with one pair appended. -/
theorem C5_prefix_invariant_witness :
    ∃ p ∈ ((runLayers ["a".data] 2).1).getD 0 [], ∃ s jt,
      (⟨["(a → (a → a))".data, "(a → (a → a))".data],
        ["A1 [A=a, B=a]".data, "A1 [A=a, B=a]".data]⟩ : Proof).steps = p.steps ++ [s] ∧
      (⟨["(a → (a → a))".data, "(a → (a → a))".data],
        ["A1 [A=a, B=a]".data, "A1 [A=a, B=a]".data]⟩ : Proof).justs = p.justs ++ [jt] :=
  C5_prefix_invariant ["a".data] 2 0
    ⟨["(a → (a → a))".data, "(a → (a → a))".data],
      ["A1 [A=a, B=a]".data, "A1 [A=a, B=a]".data]⟩
    (by decide) (by decide)

-- ### Claim C10: the total proof count

theorem buildLayer_count (axioms prev : List Proof) (count : Nat) :
    (buildLayer axioms prev count).count = count + (buildLayer axioms prev count).proofs.length := by
  unfold buildLayer
  obtain ⟨added, h1, _, h3, _⟩ := foldl_extendOne_decomp axioms prev ⟨[], [], count⟩
  rw [h1, h3]
  simp

theorem makeLayer1_count (basis : List Formula) :
    (makeLayer1 basis).count = (makeLayer1 basis).proofs.length := by
  unfold makeLayer1
  obtain ⟨added, h1, _, h3, _⟩ := foldl_addIfNew_decomp (axiomCandidates basis) ⟨[], [], 0⟩
  rw [h1, h3]
  simp

theorem searchLoop_count (axioms : List Proof) (fuel : Nat) :
    ∀ (prev : List Proof) (count : Nat),
      (searchLoop axioms fuel prev count).2 =
        count + (((searchLoop axioms fuel prev count).1).map List.length).sum := by
  induction fuel with
  | zero =>
    intro prev count
    simp [searchLoop]
  | succ fuel ih =>
    intro prev count
    by_cases hprev : prev = []
    · simp [searchLoop, hprev]
    · by_cases hst : (buildLayer axioms prev count).proofs = []
      · simp only [searchLoop, if_neg hprev, if_pos hst]
        rw [buildLayer_count, hst]
        simp
      · simp only [searchLoop, if_neg hprev, if_neg hst]
        rw [ih]
        rw [buildLayer_count]
        simp only [List.map_cons, List.sum_cons]
        omega

/-- **C10.** The reported total proof count equals the sum of the sizes of
all accepted layers, from length 1 up to the last layer built: the counter
is incremented exactly once per proof accepted into any layer (the layers
of length 1 and 2, later excluded from the minimized report, included). -/
theorem C10_total_count (basis : List Formula) (maxLen : Nat) :
    (runLayers basis maxLen).2 = (((runLayers basis maxLen).1).map List.length).sum := by
  simp only [runLayers]
  rw [searchLoop_count]
  rw [makeLayer1_count]
  simp only [List.map_cons, List.sum_cons]

-- ### Claim C8: loop bounds and early termination

/-- **C8.** The growth loop runs for at most its configured number of
iterations (`MAX_LENGTH − 1` iterations, i.e. k = 2 .. MAX_LENGTH) and,
being a total function, always terminates with a normal value; it returns
immediately on an empty previous layer; when it stops before exhausting
its iterations, either the starting layer was empty (checked before
building) or the last layer built came out empty (checked after
building); and an empty layer can only be the last one — every layer
that was further extended is nonempty.  At the pipeline level, at most
`maxLen` layers exist in total. -/
theorem C8_loop_termination :
    (∀ (axioms : List Proof) (fuel : Nat) (prev : List Proof) (count : Nat),
        ((searchLoop axioms fuel prev count).1).length ≤ fuel) ∧
    (∀ (axioms : List Proof) (fuel : Nat) (count : Nat),
        searchLoop axioms fuel [] count = ([], count)) ∧
    (∀ (axioms : List Proof) (fuel : Nat) (prev : List Proof) (count : Nat),
        ((searchLoop axioms fuel prev count).1).length < fuel →
          prev = [] ∨ ((searchLoop axioms fuel prev count).1).getLast? = some []) ∧
    (∀ (axioms : List Proof) (fuel : Nat) (prev : List Proof) (count : Nat) (i : Nat),
        i + 1 < ((searchLoop axioms fuel prev count).1).length →
          (searchLoop axioms fuel prev count).1.getD i [] ≠ []) ∧
    (∀ (basis : List Formula) (maxLen : Nat), 1 ≤ maxLen →
        ((runLayers basis maxLen).1).length ≤ maxLen) := by
  have hlen : ∀ (axioms : List Proof) (fuel : Nat) (prev : List Proof) (count : Nat),
      ((searchLoop axioms fuel prev count).1).length ≤ fuel := by
    intro axioms fuel
    induction fuel with
    | zero => intro prev count; simp [searchLoop]
    | succ fuel ih =>
      intro prev count
      by_cases hprev : prev = []
      · simp [searchLoop, hprev]
      · by_cases hst : (buildLayer axioms prev count).proofs = []
        · simp only [searchLoop, if_neg hprev, if_pos hst]
          simp
        · simp only [searchLoop, if_neg hprev, if_neg hst, List.length_cons]
          exact Nat.succ_le_succ (ih _ _)
  have hnil : ∀ (axioms : List Proof) (fuel : Nat) (count : Nat),
      searchLoop axioms fuel [] count = ([], count) := by
    intro axioms fuel count
    cases fuel with
    | zero => rfl
    | succ fuel => simp [searchLoop]
  have hstop : ∀ (axioms : List Proof) (fuel : Nat) (prev : List Proof) (count : Nat),
      ((searchLoop axioms fuel prev count).1).length < fuel →
        prev = [] ∨ ((searchLoop axioms fuel prev count).1).getLast? = some [] := by
    intro axioms fuel
    induction fuel with
    | zero => intro prev count h; omega
    | succ fuel ih =>
      intro prev count h
      by_cases hprev : prev = []
      · exact Or.inl hprev
      · right
        by_cases hst : (buildLayer axioms prev count).proofs = []
        · simp only [searchLoop, if_neg hprev, if_pos hst]
          rw [hst]
          rfl
        · simp only [searchLoop, if_neg hprev, if_neg hst] at h ⊢
          simp only [List.length_cons] at h
          rcases ih (buildLayer axioms prev count).proofs
              (buildLayer axioms prev count).count (by omega) with h' | h'
          · exact absurd h' hst
          · have hne : ((searchLoop axioms fuel (buildLayer axioms prev count).proofs
                (buildLayer axioms prev count).count).1) ≠ [] := by
              intro he
              rw [he] at h'
              cases h'
            exact Option.mem_def.mp (List.mem_getLast?_cons (Option.mem_def.mpr h'))
  have hmid : ∀ (axioms : List Proof) (fuel : Nat) (prev : List Proof) (count : Nat) (i : Nat),
      i + 1 < ((searchLoop axioms fuel prev count).1).length →
        (searchLoop axioms fuel prev count).1.getD i [] ≠ [] := by
    intro axioms fuel
    induction fuel with
    | zero =>
      intro prev count i h
      simp [searchLoop] at h
    | succ fuel ih =>
      intro prev count i h
      by_cases hprev : prev = []
      · simp [searchLoop, hprev] at h
      · by_cases hst : (buildLayer axioms prev count).proofs = []
        · simp only [searchLoop, if_neg hprev, if_pos hst] at h
          simp at h
        · simp only [searchLoop, if_neg hprev, if_neg hst] at h ⊢
          cases i with
          | zero =>
            simp only [List.getD_cons_zero]
            exact hst
          | succ i' =>
            simp only [List.getD_cons_succ]
            simp only [List.length_cons] at h
            exact ih _ _ i' (by omega)
  refine ⟨hlen, hnil, hstop, hmid, ?_⟩
  intro basis maxLen hm
  have h1 : (runLayers basis maxLen).1 =
      (makeLayer1 basis).proofs ::
        (searchLoop (makeLayer1 basis).proofs (maxLen - 1) (makeLayer1 basis).proofs
          (makeLayer1 basis).count).1 := by
    simp only [runLayers]
  rw [h1]
  simp only [List.length_cons]
  have := hlen (makeLayer1 basis).proofs (maxLen - 1) (makeLayer1 basis).proofs
    (makeLayer1 basis).count
  omega

/-- Witness for C8: with basis `{a}` and MAX_LENGTH 1, the pipeline holds
exactly one layer, within the bound; and the loop on an empty previous
layer returns at once. -/
theorem C8_loop_termination_witness :
    ((runLayers ["a".data] 1).1).length ≤ 1 ∧ searchLoop [] 4 [] 7 = ([], 7) :=
  ⟨C8_loop_termination.2.2.2.2 ["a".data] 1 (by decide),
   C8_loop_termination.2.1 [] 4 7⟩

/-- Witness for C1 at concrete formulas: a non-matching implication shape
yields the not-applicable result. -/
theorem C1_apply_mp_exact_witness :
    apply_mp "a".data "(b → c)".data = none :=
  C1_apply_mp_exact.2 "a".data "(b → c)".data (by decide)

-- ### Claim C3: the theorem minimizer

theorem lookupThm_append_some {t : Formula} {m : List (Formula × Proof)} {b : Proof}
    (h : lookupThm t m = some b) (e : Formula × Proof) :
    lookupThm t (m ++ [e]) = some b := by
  induction m with
  | nil => cases h
  | cons x rest ih =>
    simp only [List.cons_append, lookupThm] at h ⊢
    by_cases hx : x.1 = t
    · rw [if_pos hx] at h ⊢
      exact h
    · rw [if_neg hx] at h ⊢
      exact ih h

theorem lookupThm_append_new {t : Formula} {m : List (Formula × Proof)}
    (h : lookupThm t m = none) (p : Proof) :
    lookupThm t (m ++ [(t, p)]) = some p := by
  induction m with
  | nil => simp [lookupThm]
  | cons x rest ih =>
    simp only [List.cons_append, lookupThm] at h ⊢
    by_cases hx : x.1 = t
    · rw [if_pos hx] at h
      cases h
    · rw [if_neg hx] at h ⊢
      exact ih h

theorem lookupThm_setThm_self {t : Formula} {m : List (Formula × Proof)} {b : Proof}
    (h : lookupThm t m = some b) (p : Proof) :
    lookupThm t (setThm t p m) = some p := by
  induction m with
  | nil => cases h
  | cons x rest ih =>
    simp only [lookupThm] at h
    simp only [setThm]
    by_cases hx : x.1 = t
    · rw [if_pos hx]
      simp [lookupThm]
    · rw [if_neg hx]
      rw [if_neg hx] at h
      simp only [lookupThm]
      rw [if_neg hx]
      exact ih h

theorem lookupThm_setThm_other {t t' : Formula} {m : List (Formula × Proof)}
    (h : t' ≠ t) (p : Proof) :
    lookupThm t (setThm t' p m) = lookupThm t m := by
  induction m with
  | nil => rfl
  | cons x rest ih =>
    simp only [setThm]
    by_cases hx : x.1 = t'
    · rw [if_pos hx]
      simp only [lookupThm]
      rw [if_neg h, if_neg (by rw [hx]; exact h)]
    · rw [if_neg hx]
      simp only [lookupThm]
      by_cases hx2 : x.1 = t
      · rw [if_pos hx2, if_pos hx2]
      · rw [if_neg hx2, if_neg hx2]
        exact ih

theorem bestLe_refl (p : Proof) : BestLe p p :=
  ⟨Nat.le_refl _, fun _ => Nat.le_refl _⟩

theorem updateBest_establishes (m : List (Formula × Proof)) (p : Proof) :
    ∃ b, lookupThm (theoremOf p) (updateBest m p) = some b ∧ BestLe b p := by
  cases hl : lookupThm (theoremOf p) m with
  | none =>
    simp only [updateBest, hl]
    exact ⟨p, lookupThm_append_new hl p, bestLe_refl p⟩
  | some b0 =>
    simp only [updateBest, hl]
    by_cases hc : get_proof_complexity p.steps < get_proof_complexity b0.steps ∨
        (get_proof_complexity p.steps = get_proof_complexity b0.steps ∧
          p.steps.length < b0.steps.length)
    · rw [if_pos hc]
      exact ⟨p, lookupThm_setThm_self hl p, bestLe_refl p⟩
    · rw [if_neg hc]
      refine ⟨b0, hl, ?_, ?_⟩
      · omega
      · intro he
        omega

theorem updateBest_preserves (m : List (Formula × Proof)) (p q : Proof) {b : Proof}
    (hl : lookupThm (theoremOf q) m = some b) (hb : BestLe b q) :
    ∃ b', lookupThm (theoremOf q) (updateBest m p) = some b' ∧ BestLe b' q := by
  by_cases ht : theoremOf p = theoremOf q
  · simp only [updateBest, ht, hl]
    by_cases hc : get_proof_complexity p.steps < get_proof_complexity b.steps ∨
        (get_proof_complexity p.steps = get_proof_complexity b.steps ∧
          p.steps.length < b.steps.length)
    · rw [if_pos hc]
      refine ⟨p, lookupThm_setThm_self hl p, ?_, ?_⟩
      · obtain ⟨hb1, hb2⟩ := hb
        omega
      · intro he
        obtain ⟨hb1, hb2⟩ := hb
        rcases hc with hc | ⟨hc1, hc2⟩
        · omega
        · have := hb2 (by omega)
          omega
    · rw [if_neg hc]
      exact ⟨b, hl, hb⟩
  · cases hl' : lookupThm (theoremOf p) m with
    | none =>
      simp only [updateBest, hl']
      exact ⟨b, lookupThm_append_some hl _, hb⟩
    | some b0 =>
      simp only [updateBest, hl']
      by_cases hc : get_proof_complexity p.steps < get_proof_complexity b0.steps ∨
          (get_proof_complexity p.steps = get_proof_complexity b0.steps ∧
            p.steps.length < b0.steps.length)
      · rw [if_pos hc]
        rw [lookupThm_setThm_other ht p]
        exact ⟨b, hl, hb⟩
      · rw [if_neg hc]
        exact ⟨b, hl, hb⟩

theorem foldl_updateBest_preserves (cands : List Proof) (m : List (Formula × Proof))
    (q : Proof) (h : ∃ b, lookupThm (theoremOf q) m = some b ∧ BestLe b q) :
    ∃ b', lookupThm (theoremOf q) (cands.foldl updateBest m) = some b' ∧ BestLe b' q := by
  induction cands generalizing m with
  | nil => exact h
  | cons p rest ih =>
    obtain ⟨b, hl, hb⟩ := h
    exact ih (updateBest m p) (updateBest_preserves m p q hl hb)

theorem foldl_updateBest_mem (cands : List Proof) (m : List (Formula × Proof))
    (p : Proof) (hp : p ∈ cands) :
    ∃ b, lookupThm (theoremOf p) (cands.foldl updateBest m) = some b ∧ BestLe b p := by
  induction cands generalizing m with
  | nil => cases hp
  | cons x rest ih =>
    rcases List.mem_cons.mp hp with rfl | hp
    · exact foldl_updateBest_preserves rest (updateBest m p) p (updateBest_establishes m p)
    · exact ih (updateBest m x) hp

/-- **C3.** For every candidate proof `p` (drawn from the layers of length
3 up, filtered to those using Modus Ponens), the minimizer's mapping holds,
at `p`'s theorem, a retained proof whose complexity score is ≤ `p`'s, and
whose step count is ≤ `p`'s whenever the complexities tie.  In particular
the retained proof is minimal among all candidates for its theorem. -/
theorem C3_minimizer_optimal :
    ∀ (layers : List (List Proof)) (p : Proof),
      p ∈ proofs_with_mp layers →
      ∃ b, lookupThm (theoremOf p) (bestProofs (proofs_with_mp layers)) = some b ∧
        get_proof_complexity b.steps ≤ get_proof_complexity p.steps ∧
        (get_proof_complexity b.steps = get_proof_complexity p.steps →
          b.steps.length ≤ p.steps.length) := by
  intro layers p hp
  obtain ⟨b, hl, hb⟩ := foldl_updateBest_mem (proofs_with_mp layers) [] p hp
  exact ⟨b, hl, hb.1, hb.2⟩

/-- Witness for C3 on a concrete three-layer run: the single MP-using
length-3 candidate is retained for its own theorem, with equal scores. -/
theorem C3_minimizer_optimal_witness :
    ∃ b, lookupThm (theoremOf ⟨[['a']], ["MP (1,2)".data]⟩)
        (bestProofs (proofs_with_mp [[], [], [⟨[['a']], ["MP (1,2)".data]⟩]])) = some b ∧
      get_proof_complexity b.steps ≤
        get_proof_complexity (⟨[['a']], ["MP (1,2)".data]⟩ : Proof).steps ∧
      (get_proof_complexity b.steps =
          get_proof_complexity (⟨[['a']], ["MP (1,2)".data]⟩ : Proof).steps →
        b.steps.length ≤ (⟨[['a']], ["MP (1,2)".data]⟩ : Proof).steps.length) :=
  C3_minimizer_optimal [[], [], [⟨[['a']], ["MP (1,2)".data]⟩]]
    ⟨[['a']], ["MP (1,2)".data]⟩ (by decide)

-- ### Claim C6: the report order

theorem strLe_total : ∀ a b : List Char, strLe a b = true ∨ strLe b a = true := by
  intro a
  induction a with
  | nil => intro b; left; rfl
  | cons c cs ih =>
    intro b
    cases b with
    | nil => right; rfl
    | cons d ds =>
      rcases lt_trichotomy c d with h | h | h
      · left
        simp [strLe, h]
      · subst h
        rcases ih ds with h' | h'
        · left
          simp [strLe, lt_irrefl, h']
        · right
          simp [strLe, lt_irrefl, h']
      · right
        simp [strLe, h]

theorem strLe_trans : ∀ a b c : List Char,
    strLe a b = true → strLe b c = true → strLe a c = true := by
  intro a
  induction a with
  | nil => intro b c _ _; rfl
  | cons x xs ih =>
    intro b c hab hbc
    cases b with
    | nil => simp [strLe] at hab
    | cons y ys =>
      cases c with
      | nil => simp [strLe] at hbc
      | cons z zs =>
        simp only [strLe] at hab hbc ⊢
        rcases lt_trichotomy x y with hxy | hxy | hxy
        · rcases lt_trichotomy y z with hyz | hyz | hyz
          · rw [if_pos (lt_trans hxy hyz)]
          · subst hyz
            rw [if_pos hxy]
          · rw [if_neg (not_lt_of_gt hyz), if_pos hyz] at hbc
            cases hbc
        · subst hxy
          rw [if_neg (lt_irrefl x), if_neg (lt_irrefl x)] at hab
          rcases lt_trichotomy x z with hyz | hyz | hyz
          · rw [if_pos hyz]
          · subst hyz
            rw [if_neg (lt_irrefl x), if_neg (lt_irrefl x)] at hbc ⊢
            exact ih ys zs hab hbc
          · rw [if_neg (not_lt_of_gt hyz), if_pos hyz] at hbc
            cases hbc
        · rw [if_neg (not_lt_of_gt hxy), if_pos hxy] at hab
          cases hab

instance : IsTotal Proof keyLe := by
  constructor
  intro a b
  unfold keyLe
  rcases Nat.lt_trichotomy a.steps.length b.steps.length with h | h | h
  · exact Or.inl (Or.inl h)
  · rcases strLe_total (theoremOf a) (theoremOf b) with hs | hs
    · exact Or.inl (Or.inr ⟨h, hs⟩)
    · exact Or.inr (Or.inr ⟨h.symm, hs⟩)
  · exact Or.inr (Or.inl h)

instance : IsTrans Proof keyLe := by
  constructor
  intro a b c hab hbc
  unfold keyLe at hab hbc ⊢
  rcases hab with hab | ⟨he1, hs1⟩
  · rcases hbc with hbc | ⟨he2, hs2⟩
    · exact Or.inl (Nat.lt_trans hab hbc)
    · exact Or.inl (he2 ▸ hab)
  · rcases hbc with hbc | ⟨he2, hs2⟩
    · exact Or.inl (he1 ▸ hbc)
    · exact Or.inr ⟨he1.trans he2, strLe_trans _ _ _ hs1 hs2⟩

theorem lookupThm_eq_none (t : Formula) (m : List (Formula × Proof)) :
    lookupThm t m = none ↔ t ∉ m.map Prod.fst := by
  induction m with
  | nil => simp [lookupThm]
  | cons x rest ih =>
    simp only [lookupThm, List.map_cons, List.mem_cons]
    by_cases hx : x.1 = t
    · rw [if_pos hx]
      constructor
      · intro h
        cases h
      · intro h
        exact absurd (Or.inl hx.symm) h
    · rw [if_neg hx]
      rw [ih]
      constructor
      · intro h hc
        rcases hc with hc | hc
        · exact hx hc.symm
        · exact h hc
      · intro h hc
        exact h (Or.inr hc)

theorem setThm_keys (t : Formula) (p : Proof) (m : List (Formula × Proof)) :
    (setThm t p m).map Prod.fst = m.map Prod.fst := by
  induction m with
  | nil => rfl
  | cons x rest ih =>
    simp only [setThm]
    by_cases hx : x.1 = t
    · rw [if_pos hx]
      simp [hx]
    · rw [if_neg hx]
      simp [ih]

theorem mem_setThm {t : Formula} {p : Proof} {m : List (Formula × Proof)}
    {e : Formula × Proof} (h : e ∈ setThm t p m) : e = (t, p) ∨ e ∈ m := by
  induction m with
  | nil => cases h
  | cons x rest ih =>
    simp only [setThm] at h
    by_cases hx : x.1 = t
    · rw [if_pos hx] at h
      rcases List.mem_cons.mp h with rfl | h
      · exact Or.inl rfl
      · exact Or.inr (List.mem_cons_of_mem _ h)
    · rw [if_neg hx] at h
      rcases List.mem_cons.mp h with rfl | h
      · exact Or.inr (List.mem_cons_self _ _)
      · rcases ih h with h' | h'
        · exact Or.inl h'
        · exact Or.inr (List.mem_cons_of_mem _ h')

theorem updateBest_inv (m : List (Formula × Proof)) (p : Proof)
    (h1 : ∀ e ∈ m, theoremOf e.2 = e.1) (h2 : (m.map Prod.fst).Nodup) :
    (∀ e ∈ updateBest m p, theoremOf e.2 = e.1) ∧
      ((updateBest m p).map Prod.fst).Nodup := by
  cases hl : lookupThm (theoremOf p) m with
  | none =>
    simp only [updateBest, hl]
    constructor
    · intro e he
      rcases List.mem_append.mp he with he | he
      · exact h1 e he
      · rcases List.mem_singleton.mp he with rfl
        rfl
    · rw [List.map_append]
      simp only [List.map_cons, List.map_nil]
      rw [List.nodup_append]
      refine ⟨h2, List.nodup_singleton _, ?_⟩
      intro a ha hb
      rcases List.mem_singleton.mp hb with rfl
      exact (lookupThm_eq_none _ _).mp hl ha
  | some b0 =>
    simp only [updateBest, hl]
    by_cases hc : get_proof_complexity p.steps < get_proof_complexity b0.steps ∨
        (get_proof_complexity p.steps = get_proof_complexity b0.steps ∧
          p.steps.length < b0.steps.length)
    · rw [if_pos hc]
      constructor
      · intro e he
        rcases mem_setThm he with rfl | he
        · rfl
        · exact h1 e he
      · rw [setThm_keys]
        exact h2
    · rw [if_neg hc]
      exact ⟨h1, h2⟩

theorem bestProofs_inv (cands : List Proof) :
    (∀ e ∈ bestProofs cands, theoremOf e.2 = e.1) ∧
      ((bestProofs cands).map Prod.fst).Nodup := by
  unfold bestProofs
  suffices h : ∀ (m : List (Formula × Proof)), (∀ e ∈ m, theoremOf e.2 = e.1) →
      (m.map Prod.fst).Nodup →
      (∀ e ∈ cands.foldl updateBest m, theoremOf e.2 = e.1) ∧
        ((cands.foldl updateBest m).map Prod.fst).Nodup by
    exact h [] (by intro e he; cases he) List.nodup_nil
  induction cands with
  | nil => intro m h1 h2; exact ⟨h1, h2⟩
  | cons p rest ih =>
    intro m h1 h2
    obtain ⟨g1, g2⟩ := updateBest_inv m p h1 h2
    exact ih (updateBest m p) g1 g2

/-- **C6.** The final report lists the minimized best proofs sorted by
step count ascending, then theorem text ascending: the output is a
permutation of the minimizer's values, and for any two reported proofs
the earlier one has strictly fewer steps, or an equal step count together
with a theorem text that is lexicographically ≤ the later one's and (the
theorems of distinct reported proofs being distinct) not equal to it. -/
theorem C6_report_order (layers : List (List Proof)) :
    (final_proofs layers).Perm ((bestProofs (proofs_with_mp layers)).map Prod.snd) ∧
    (final_proofs layers).Pairwise (fun p q =>
      p.steps.length < q.steps.length ∨
      (p.steps.length = q.steps.length ∧ strLe (theoremOf p) (theoremOf q) = true ∧
        theoremOf p ≠ theoremOf q)) := by
  have hperm : (final_proofs layers).Perm
      ((bestProofs (proofs_with_mp layers)).map Prod.snd) :=
    List.perm_insertionSort keyLe _
  refine ⟨hperm, ?_⟩
  have hsorted : (final_proofs layers).Pairwise keyLe := by
    have := List.sorted_insertionSort keyLe
      ((bestProofs (proofs_with_mp layers)).map Prod.snd)
    exact this
  obtain ⟨hent, hnodup⟩ := bestProofs_inv (proofs_with_mp layers)
  have hvals : ((bestProofs (proofs_with_mp layers)).map Prod.snd).map theoremOf =
      (bestProofs (proofs_with_mp layers)).map Prod.fst := by
    rw [List.map_map]
    exact List.map_congr_left (by intro e he; exact hent e he)
  have hnodup2 : (((bestProofs (proofs_with_mp layers)).map Prod.snd).map theoremOf).Nodup := by
    rw [hvals]
    exact hnodup
  have hnodup3 : ((final_proofs layers).map theoremOf).Nodup := by
    exact (List.Perm.nodup_iff (List.Perm.map theoremOf hperm)).mpr hnodup2
  have hne : (final_proofs layers).Pairwise (fun p q => theoremOf p ≠ theoremOf q) := by
    rw [List.Nodup, List.pairwise_map] at hnodup3
    exact hnodup3
  have hand := List.Pairwise.and hsorted hne
  apply List.Pairwise.imp _ hand
  intro p q h
  obtain ⟨hk, hneq⟩ := h
  unfold keyLe at hk
  rcases hk with hk | ⟨he, hs⟩
  · exact Or.inl hk
  · exact Or.inr ⟨he, hs, hneq⟩

-- ### Claim C7: word-boundary substitution

theorem replTok_cons_false {v : Char} {w : List Char} {p : Bool} {c : Char} {l : List Char}
    (h : (c == v && !p && !nextWord l) = false) :
    replTok v w p (c :: l) = c :: replTok v w (isWordChar c) l := by
  simp [replTok, h]

theorem replTok_cons_true {v : Char} {w : List Char} {p : Bool} {c : Char} {l : List Char}
    (h : (c == v && !p && !nextWord l) = true) :
    replTok v w p (c :: l) = w ++ replTok v w (isWordChar c) l := by
  simp [replTok, h]

theorem hasTok_cons (v : Char) (p : Bool) (c : Char) (l : List Char) :
    hasTok v p (c :: l) = ((c == v && !p && !nextWord l) || hasTok v (isWordChar c) l) := rfl

theorem beq_false_of_nonword {c v : Char} (hc : isWordChar c = false)
    (hv : isWordChar v = true) : (c == v) = false := by
  rw [beq_eq_false_iff_ne]
  intro he
  rw [he, hv] at hc
  cases hc

theorem wordEnd_cons (p : Bool) (c : Char) (l : List Char) :
    wordEnd p (c :: l) = wordEnd (isWordChar c) l := rfl

theorem wordEnd_nonword : ∀ (s : List Char) (p : Bool), s ≠ [] →
    (∀ c ∈ s, isWordChar c = false) → wordEnd p s = false := by
  intro s
  induction s with
  | nil => intro p h _; exact absurd rfl h
  | cons c s' ih =>
    intro p _ hall
    rw [wordEnd_cons]
    cases s' with
    | nil =>
      simp only [wordEnd]
      exact hall c (List.mem_cons_self _ _)
    | cons d s'' =>
      exact ih (isWordChar c) (by simp) (fun x hx => hall x (List.mem_cons_of_mem _ hx))

theorem hasTok_nonword {v : Char} (hv : isWordChar v = true) :
    ∀ (s : List Char) (p : Bool), (∀ c ∈ s, isWordChar c = false) →
      hasTok v p s = false := by
  intro s
  induction s with
  | nil => intro p _; rfl
  | cons c s' ih =>
    intro p hall
    rw [hasTok_cons]
    have hc : (c == v) = false :=
      beq_false_of_nonword (hall c (List.mem_cons_self _ _)) hv
    rw [hc]
    simp only [Bool.false_and, Bool.false_or]
    exact ih (isWordChar c) (fun x hx => hall x (List.mem_cons_of_mem _ hx))

theorem nextWord_append (a t : List Char) (h : a ≠ []) :
    nextWord (a ++ t) = nextWord a := by
  cases a with
  | nil => exact absurd rfl h
  | cons c a' => rfl

theorem replTok_lit (v : Char) (w : List Char) :
    ∀ (s : List Char) (p : Bool) (tail : List Char),
      (∀ c ∈ s, (c == v) = false) →
      replTok v w p (s ++ tail) = s ++ replTok v w (wordEnd p s) tail := by
  intro s
  induction s with
  | nil => intro p tail _; rfl
  | cons c s' ih =>
    intro p tail hall
    have hc : (c == v) = false := hall c (List.mem_cons_self _ _)
    rw [List.cons_append,
      replTok_cons_false (by rw [hc]; simp), wordEnd_cons,
      ih (isWordChar c) tail (fun x hx => hall x (List.mem_cons_of_mem _ hx))]
    rfl

theorem replTok_clean_seg (v : Char) (w : List Char) :
    ∀ (a : List Char) (p : Bool) (tail : List Char),
      hasTok v p a = false → nextWord tail = false →
      replTok v w p (a ++ tail) = a ++ replTok v w (wordEnd p a) tail := by
  intro a
  induction a with
  | nil => intro p tail _ _; rfl
  | cons c a' ih =>
    intro p tail ht htail
    rw [hasTok_cons, Bool.or_eq_false_iff] at ht
    obtain ⟨hc, h'⟩ := ht
    have hcond : (c == v && !p && !nextWord (a' ++ tail)) = false := by
      cases a' with
      | nil =>
        simp only [List.nil_append]
        rw [htail]
        have hnil : nextWord ([] : List Char) = false := rfl
        rw [hnil] at hc
        exact hc
      | cons d a'' =>
        rw [nextWord_append _ _ (by simp)]
        exact hc
    rw [List.cons_append, replTok_cons_false hcond, wordEnd_cons,
      ih (isWordChar c) tail h' htail]
    rfl

theorem hasTok_lit {v : Char} :
    ∀ (s : List Char) (p : Bool) (tail : List Char),
      (∀ c ∈ s, (c == v) = false) →
      hasTok v p (s ++ tail) = hasTok v (wordEnd p s) tail := by
  intro s
  induction s with
  | nil => intro p tail _; rfl
  | cons c s' ih =>
    intro p tail hall
    have hc : (c == v) = false := hall c (List.mem_cons_self _ _)
    rw [List.cons_append, hasTok_cons, hc]
    simp only [Bool.false_and, Bool.false_or]
    rw [wordEnd_cons, ih (isWordChar c) tail (fun x hx => hall x (List.mem_cons_of_mem _ hx))]

theorem hasTok_clean_seg {v : Char} :
    ∀ (a : List Char) (p : Bool) (tail : List Char),
      nextWord tail = false →
      hasTok v p (a ++ tail) = (hasTok v p a || hasTok v (wordEnd p a) tail) := by
  intro a
  induction a with
  | nil => intro p tail _; rfl
  | cons c a' ih =>
    intro p tail htail
    rw [List.cons_append, hasTok_cons, hasTok_cons, wordEnd_cons,
      ih (isWordChar c) tail htail]
    have hnw : nextWord (a' ++ tail) = nextWord a' ∨ (a' = [] ∧ nextWord (a' ++ tail) = false) := by
      cases a' with
      | nil => exact Or.inr ⟨rfl, htail⟩
      | cons d a'' => exact Or.inl rfl
    rcases hnw with hnw | ⟨rfl, hnw⟩
    · rw [hnw, Bool.or_assoc]
    · rw [hnw]
      simp only [nextWord, List.nil_append]
      rw [Bool.or_assoc]

theorem litOK_spec {s : List Char} (h : litOK s = true) :
    s ≠ [] ∧ ∀ c ∈ s, isWordChar c = false := by
  unfold litOK at h
  rw [Bool.and_eq_true] at h
  obtain ⟨h1, h2⟩ := h
  constructor
  · intro he
    rw [he] at h1
    cases h1
  · intro c hc
    have := List.all_eq_true.mp h2 c hc
    simpa using this

theorem nextWord_flattenP {σ : Char → List Char} {P : Pat} (h : patOK P = true) :
    nextWord (flattenP σ P) = false := by
  cases P with
  | done s =>
    obtain ⟨h1, h2⟩ := litOK_spec h
    cases s with
    | nil => exact absurd rfl h1
    | cons c s' =>
      simp only [flattenP, nextWord]
      exact h2 c (List.mem_cons_self _ _)
  | seg s v rest =>
    rw [patOK, Bool.and_eq_true] at h
    obtain ⟨h1, h2⟩ := litOK_spec h.1
    cases s with
    | nil => exact absurd rfl h1
    | cons c s' =>
      simp only [flattenP, List.cons_append, nextWord]
      exact h2 c (List.mem_cons_self _ _)

theorem substitute_pass (v : Char) (w : List Char) (hv : isWordChar v = true) :
    ∀ (P : Pat) (σ : Char → List Char), patOK P = true →
      σ v = [v] →
      (∀ u ∈ patVars P, u ≠ v → hasTok v false (σ u) = false) →
      ∀ p : Bool,
        replTok v w p (flattenP σ P) =
          flattenP (fun u => if u = v then w else σ u) P := by
  intro P
  induction P with
  | done s =>
    intro σ hOK _ _ p
    obtain ⟨h1, h2⟩ := litOK_spec hOK
    simp only [flattenP]
    have h3 := replTok_lit v w s p []
      (fun c hc => beq_false_of_nonword (h2 c hc) hv)
    rw [List.append_nil] at h3
    have h4 : replTok v w (wordEnd p s) [] = [] := rfl
    rw [h4, List.append_nil] at h3
    exact h3
  | seg s u rest ih =>
    intro σ hOK hσv hclean p
    rw [patOK, Bool.and_eq_true] at hOK
    obtain ⟨hsOK, hrestOK⟩ := hOK
    obtain ⟨h1, h2⟩ := litOK_spec hsOK
    simp only [flattenP, List.append_assoc]
    rw [replTok_lit v w s p _ (fun c hc => beq_false_of_nonword (h2 c hc) hv)]
    rw [wordEnd_nonword s p h1 h2]
    by_cases huv : u = v
    · rw [huv, hσv]
      have hcond : (v == v && !false && !nextWord (flattenP σ rest)) = true := by
        rw [nextWord_flattenP hrestOK]
        simp
      rw [List.singleton_append, replTok_cons_true hcond]
      rw [ih σ hrestOK hσv (fun x hx hxv => hclean x (List.mem_cons_of_mem _ hx) hxv) _]
      rw [if_pos rfl]
    · have hcu : hasTok v false (σ u) = false :=
        hclean u (List.mem_cons_self _ _) huv
      rw [replTok_clean_seg v w (σ u) false (flattenP σ rest) hcu
        (nextWord_flattenP hrestOK)]
      rw [ih σ hrestOK hσv (fun x hx hxv => hclean x (List.mem_cons_of_mem _ hx) hxv) _]
      rw [if_neg huv]

theorem hasTok_flattenP_clean {v : Char} (hv : isWordChar v = true) :
    ∀ (P : Pat) (σ : Char → List Char), patOK P = true →
      (∀ u ∈ patVars P, hasTok v false (σ u) = false) →
      ∀ p : Bool, hasTok v p (flattenP σ P) = false := by
  intro P
  induction P with
  | done s =>
    intro σ hOK _ p
    obtain ⟨_, h2⟩ := litOK_spec hOK
    simp only [flattenP]
    exact hasTok_nonword hv s p h2
  | seg s u rest ih =>
    intro σ hOK hclean p
    rw [patOK, Bool.and_eq_true] at hOK
    obtain ⟨hsOK, hrestOK⟩ := hOK
    obtain ⟨h1, h2⟩ := litOK_spec hsOK
    simp only [flattenP, List.append_assoc]
    rw [hasTok_lit s p _ (fun c hc => beq_false_of_nonword (h2 c hc) hv)]
    rw [wordEnd_nonword s p h1 h2]
    rw [hasTok_clean_seg (σ u) false _ (nextWord_flattenP hrestOK)]
    rw [hclean u (List.mem_cons_self _ _)]
    rw [ih σ hrestOK (fun x hx => hclean x (List.mem_cons_of_mem _ hx)) _]
    rfl

theorem substitute_A1_spec (a b : List Char) (ha : noSchemaTok a) (hb : noSchemaTok b) :
    substitute "(A → (B → A))".data [('A', a), ('B', b)] =
      "(".data ++ a ++ " → (".data ++ b ++ " → ".data ++ a ++ "))".data ∧
    noSchemaTok (substitute "(A → (B → A))".data [('A', a), ('B', b)]) := by
  obtain ⟨ha1, ha2, ha3⟩ := ha
  obtain ⟨hb1, hb2, hb3⟩ := hb
  have e0 : "(A → (B → A))".data = flattenP (fun u => [u]) A1pat := by decide
  have e1 : replTok 'A' a false ("(A → (B → A))".data) =
      flattenP (fun u => if u = 'A' then a else [u]) A1pat := by
    rw [e0]
    exact substitute_pass 'A' a (by decide) A1pat (fun u => [u]) (by decide) rfl
      (by decide) false
  have e2 : replTok 'B' b false (flattenP (fun u => if u = 'A' then a else [u]) A1pat) =
      flattenP (fun u => if u = 'B' then b else if u = 'A' then a else [u]) A1pat := by
    refine substitute_pass 'B' b (by decide) A1pat _ (by decide) (by simp) ?_ false
    intro u hu hune
    have hu' : u = 'A' ∨ u = 'B' ∨ u = 'A' := by simpa [A1pat, patVars] using hu
    rcases hu' with rfl | rfl | rfl
    · simpa using ha2
    · exact absurd rfl hune
    · simpa using ha2
  have hS : substitute "(A → (B → A))".data [('A', a), ('B', b)] =
      flattenP (fun u => if u = 'B' then b else if u = 'A' then a else [u]) A1pat := by
    show replTok 'B' b false (replTok 'A' a false "(A → (B → A))".data) = _
    rw [e1, e2]
  have hclean : ∀ v : Char, isWordChar v = true →
      hasTok v false a = false → hasTok v false b = false →
      hasTok v false (flattenP
        (fun u => if u = 'B' then b else if u = 'A' then a else [u]) A1pat) = false := by
    intro v hv hva hvb
    refine hasTok_flattenP_clean hv A1pat _ (by decide) ?_ false
    intro u hu
    have hu' : u = 'A' ∨ u = 'B' ∨ u = 'A' := by simpa [A1pat, patVars] using hu
    rcases hu' with rfl | rfl | rfl
    · simpa using hva
    · simpa using hvb
    · simpa using hva
  refine ⟨?_, ?_, ?_, ?_⟩
  · rw [hS]
    simp [A1pat, flattenP]
  · rw [hS]
    exact hclean 'A' (by decide) ha1 hb1
  · rw [hS]
    exact hclean 'B' (by decide) ha2 hb2
  · rw [hS]
    exact hclean 'C' (by decide) ha3 hb3

theorem substitute_A2_spec (a b c : List Char)
    (ha : noSchemaTok a) (hb : noSchemaTok b) (hc : noSchemaTok c) :
    substitute "((A → (B → C)) → ((A → B) → (A → C)))".data
        [('A', a), ('B', b), ('C', c)] =
      "((".data ++ a ++ " → (".data ++ b ++ " → ".data ++ c ++ ")) → ((".data ++ a ++
        " → ".data ++ b ++ ") → (".data ++ a ++ " → ".data ++ c ++ ")))".data ∧
    noSchemaTok (substitute "((A → (B → C)) → ((A → B) → (A → C)))".data
        [('A', a), ('B', b), ('C', c)]) := by
  obtain ⟨ha1, ha2, ha3⟩ := ha
  obtain ⟨hb1, hb2, hb3⟩ := hb
  obtain ⟨hc1, hc2, hc3⟩ := hc
  have e0 : "((A → (B → C)) → ((A → B) → (A → C)))".data =
      flattenP (fun u => [u]) A2pat := by decide
  have e1 : replTok 'A' a false ("((A → (B → C)) → ((A → B) → (A → C)))".data) =
      flattenP (fun u => if u = 'A' then a else [u]) A2pat := by
    rw [e0]
    exact substitute_pass 'A' a (by decide) A2pat (fun u => [u]) (by decide) rfl
      (by decide) false
  have e2 : replTok 'B' b false (flattenP (fun u => if u = 'A' then a else [u]) A2pat) =
      flattenP (fun u => if u = 'B' then b else if u = 'A' then a else [u]) A2pat := by
    refine substitute_pass 'B' b (by decide) A2pat _ (by decide) (by simp) ?_ false
    intro u hu hune
    have hu' : u = 'A' ∨ u = 'B' ∨ u = 'C' ∨ u = 'A' ∨ u = 'B' ∨ u = 'A' ∨ u = 'C' := by
      simpa [A2pat, patVars] using hu
    rcases hu' with rfl | rfl | rfl | rfl | rfl | rfl | rfl
    · simpa using ha2
    · exact absurd rfl hune
    · simp
      decide
    · simpa using ha2
    · exact absurd rfl hune
    · simpa using ha2
    · simp
      decide
  have e3 : replTok 'C' c false
      (flattenP (fun u => if u = 'B' then b else if u = 'A' then a else [u]) A2pat) =
      flattenP (fun u => if u = 'C' then c else if u = 'B' then b
        else if u = 'A' then a else [u]) A2pat := by
    refine substitute_pass 'C' c (by decide) A2pat _ (by decide) (by simp) ?_ false
    intro u hu hune
    have hu' : u = 'A' ∨ u = 'B' ∨ u = 'C' ∨ u = 'A' ∨ u = 'B' ∨ u = 'A' ∨ u = 'C' := by
      simpa [A2pat, patVars] using hu
    rcases hu' with rfl | rfl | rfl | rfl | rfl | rfl | rfl
    · simpa using ha3
    · simpa using hb3
    · exact absurd rfl hune
    · simpa using ha3
    · simpa using hb3
    · simpa using ha3
    · exact absurd rfl hune
  have hS : substitute "((A → (B → C)) → ((A → B) → (A → C)))".data
      [('A', a), ('B', b), ('C', c)] =
      flattenP (fun u => if u = 'C' then c else if u = 'B' then b
        else if u = 'A' then a else [u]) A2pat := by
    show replTok 'C' c false (replTok 'B' b false
      (replTok 'A' a false "((A → (B → C)) → ((A → B) → (A → C)))".data)) = _
    rw [e1, e2, e3]
  have hclean : ∀ v : Char, isWordChar v = true →
      hasTok v false a = false → hasTok v false b = false → hasTok v false c = false →
      hasTok v false (flattenP (fun u => if u = 'C' then c else if u = 'B' then b
        else if u = 'A' then a else [u]) A2pat) = false := by
    intro v hv hva hvb hvc
    refine hasTok_flattenP_clean hv A2pat _ (by decide) ?_ false
    intro u hu
    have hu' : u = 'A' ∨ u = 'B' ∨ u = 'C' ∨ u = 'A' ∨ u = 'B' ∨ u = 'A' ∨ u = 'C' := by
      simpa [A2pat, patVars] using hu
    rcases hu' with rfl | rfl | rfl | rfl | rfl | rfl | rfl
    · simpa using hva
    · simpa using hvb
    · simpa using hvc
    · simpa using hva
    · simpa using hvb
    · simpa using hva
    · simpa using hvc
  refine ⟨?_, ?_, ?_, ?_⟩
  · rw [hS]
    simp [A2pat, flattenP]
  · rw [hS]
    exact hclean 'A' (by decide) ha1 hb1 hc1
  · rw [hS]
    exact hclean 'B' (by decide) ha2 hb2 hc2
  · rw [hS]
    exact hclean 'C' (by decide) ha3 hb3 hc3

theorem substitute_A3_spec (a b : List Char) (ha : noSchemaTok a) (hb : noSchemaTok b) :
    substitute "((¬B → ¬A) → (A → B))".data [('A', a), ('B', b)] =
      "((¬".data ++ b ++ " → ¬".data ++ a ++ ") → (".data ++ a ++
        " → ".data ++ b ++ "))".data ∧
    noSchemaTok (substitute "((¬B → ¬A) → (A → B))".data [('A', a), ('B', b)]) := by
  obtain ⟨ha1, ha2, ha3⟩ := ha
  obtain ⟨hb1, hb2, hb3⟩ := hb
  have e0 : "((¬B → ¬A) → (A → B))".data = flattenP (fun u => [u]) A3pat := by decide
  have e1 : replTok 'A' a false ("((¬B → ¬A) → (A → B))".data) =
      flattenP (fun u => if u = 'A' then a else [u]) A3pat := by
    rw [e0]
    exact substitute_pass 'A' a (by decide) A3pat (fun u => [u]) (by decide) rfl
      (by decide) false
  have e2 : replTok 'B' b false (flattenP (fun u => if u = 'A' then a else [u]) A3pat) =
      flattenP (fun u => if u = 'B' then b else if u = 'A' then a else [u]) A3pat := by
    refine substitute_pass 'B' b (by decide) A3pat _ (by decide) (by simp) ?_ false
    intro u hu hune
    have hu' : u = 'B' ∨ u = 'A' ∨ u = 'A' ∨ u = 'B' := by
      simpa [A3pat, patVars] using hu
    rcases hu' with rfl | rfl | rfl | rfl
    · exact absurd rfl hune
    · simpa using ha2
    · simpa using ha2
    · exact absurd rfl hune
  have hS : substitute "((¬B → ¬A) → (A → B))".data [('A', a), ('B', b)] =
      flattenP (fun u => if u = 'B' then b else if u = 'A' then a else [u]) A3pat := by
    show replTok 'B' b false (replTok 'A' a false "((¬B → ¬A) → (A → B))".data) = _
    rw [e1, e2]
  have hclean : ∀ v : Char, isWordChar v = true →
      hasTok v false a = false → hasTok v false b = false →
      hasTok v false (flattenP
        (fun u => if u = 'B' then b else if u = 'A' then a else [u]) A3pat) = false := by
    intro v hv hva hvb
    refine hasTok_flattenP_clean hv A3pat _ (by decide) ?_ false
    intro u hu
    have hu' : u = 'B' ∨ u = 'A' ∨ u = 'A' ∨ u = 'B' := by
      simpa [A3pat, patVars] using hu
    rcases hu' with rfl | rfl | rfl | rfl
    · simpa using hvb
    · simpa using hva
    · simpa using hva
    · simpa using hvb
  refine ⟨?_, ?_, ?_, ?_⟩
  · rw [hS]
    simp [A3pat, flattenP]
  · rw [hS]
    exact hclean 'A' (by decide) ha1 hb1
  · rw [hS]
    exact hclean 'B' (by decide) ha2 hb2
  · rw [hS]
    exact hclean 'C' (by decide) ha3 hb3

/-- **C7.** For every assignment of schema variables to formulas free of
schema-variable tokens, the Substitution Engine returns the template text
with every whole-token occurrence of each variable replaced by its
assignment — stated for each of the three axiom templates — and the
result contains no remaining schema-variable tokens.  Moreover matching
is word-boundary aware: an occurrence of the variable character directly
preceded or followed by a word character is never replaced. -/
theorem C7_substitution :
    (∀ a b : List Char, noSchemaTok a → noSchemaTok b →
      substitute "(A → (B → A))".data [('A', a), ('B', b)] =
        "(".data ++ a ++ " → (".data ++ b ++ " → ".data ++ a ++ "))".data ∧
      noSchemaTok (substitute "(A → (B → A))".data [('A', a), ('B', b)])) ∧
    (∀ a b c : List Char, noSchemaTok a → noSchemaTok b → noSchemaTok c →
      substitute "((A → (B → C)) → ((A → B) → (A → C)))".data
          [('A', a), ('B', b), ('C', c)] =
        "((".data ++ a ++ " → (".data ++ b ++ " → ".data ++ c ++ ")) → ((".data ++ a ++
          " → ".data ++ b ++ ") → (".data ++ a ++ " → ".data ++ c ++ ")))".data ∧
      noSchemaTok (substitute "((A → (B → C)) → ((A → B) → (A → C)))".data
          [('A', a), ('B', b), ('C', c)])) ∧
    (∀ a b : List Char, noSchemaTok a → noSchemaTok b →
      substitute "((¬B → ¬A) → (A → B))".data [('A', a), ('B', b)] =
        "((¬".data ++ b ++ " → ¬".data ++ a ++ ") → (".data ++ a ++
          " → ".data ++ b ++ "))".data ∧
      noSchemaTok (substitute "((¬B → ¬A) → (A → B))".data [('A', a), ('B', b)])) ∧
    (∀ (v : Char) (w rest : List Char),
      replTok v w true (v :: rest) = v :: replTok v w (isWordChar v) rest) ∧
    (∀ (v d : Char) (w rest : List Char), isWordChar d = true →
      replTok v w false (v :: d :: rest) = v :: replTok v w (isWordChar v) (d :: rest)) := by
  refine ⟨substitute_A1_spec, substitute_A2_spec, substitute_A3_spec, ?_, ?_⟩
  · intro v w rest
    exact replTok_cons_false (by simp)
  · intro v d w rest
    intro hd
    refine replTok_cons_false ?_
    have : nextWord (d :: rest) = true := hd
    rw [this]
    simp

/-- Witness for C7 at the concrete assignment A↦`a`, B↦`b`, C↦`(¬a)`:
each template instantiates to its fully substituted text with no schema
variables left, and a blocked occurrence stays in place. -/
theorem C7_substitution_witness :
    (substitute "(A → (B → A))".data [('A', "a".data), ('B', "b".data)] =
      "(".data ++ "a".data ++ " → (".data ++ "b".data ++ " → ".data ++ "a".data ++
        "))".data) ∧
    (substitute "((¬B → ¬A) → (A → B))".data [('A', "a".data), ('B', "b".data)] =
      "((¬".data ++ "b".data ++ " → ¬".data ++ "a".data ++ ") → (".data ++ "a".data ++
        " → ".data ++ "b".data ++ "))".data) ∧
    noSchemaTok (substitute "((A → (B → C)) → ((A → B) → (A → C)))".data
      [('A', "a".data), ('B', "b".data), ('C', "(¬a)".data)]) :=
  ⟨(C7_substitution.1 "a".data "b".data ⟨rfl, rfl, rfl⟩ ⟨rfl, rfl, rfl⟩).1,
   (C7_substitution.2.2.1 "a".data "b".data ⟨rfl, rfl, rfl⟩ ⟨rfl, rfl, rfl⟩).1,
   (C7_substitution.2.1 "a".data "b".data "(¬a)".data
      ⟨rfl, rfl, rfl⟩ ⟨rfl, rfl, rfl⟩ ⟨rfl, rfl, rfl⟩).2⟩

-- ### Claim C9: soundness of accepted proofs

theorem axProof_of_mem_candidates {basis : List Formula} {p : Proof}
    (h : p ∈ axiomCandidates basis) : AxProof p := by
  unfold axiomCandidates at h
  rcases List.mem_flatMap.mp h with ⟨nt, hnt, hp⟩
  rcases List.mem_map.mp hp with ⟨combo, _, rfl⟩
  exact ⟨nt.1, nt.2.1, nt.2.2, combo, by simpa using hnt, rfl, rfl⟩

theorem axProof_makeLayer1 {basis : List Formula} {p : Proof}
    (h : p ∈ (makeLayer1 basis).proofs) : AxProof p := by
  unfold makeLayer1 at h
  obtain ⟨added, h1, _, _, h4⟩ := foldl_addIfNew_decomp (axiomCandidates basis) ⟨[], [], 0⟩
  rw [h1] at h
  simp only [List.nil_append] at h
  exact axProof_of_mem_candidates (h4 p h)

theorem soundProof_of_axProof {p : Proof} (h : AxProof p) : SoundProof p := by
  obtain ⟨name, template, vars, combo, hmem, hsteps, hjusts⟩ := h
  constructor
  · rw [hsteps, hjusts]
    rfl
  · intro n hn
    rw [hsteps] at hn
    simp only [List.length_singleton] at hn
    interval_cases n
    left
    exact ⟨name, template, vars, combo, hmem, by rw [hsteps]; rfl, by rw [hjusts]; rfl⟩

theorem mem_optionB_inv {p q : Proof} (h : q ∈ optionB p) :
    ∃ i j q', i < p.steps.length ∧ j < p.steps.length ∧ i ≠ j ∧
      apply_mp (p.steps.getD i []) (p.steps.getD j []) = some q' ∧ q' ≠ [] ∧
      q = ⟨p.steps ++ [q'], p.justs ++ [mpJust (i + 1) (j + 1)]⟩ := by
  unfold optionB at h
  rcases List.mem_flatMap.mp h with ⟨i, hi, h⟩
  rcases List.mem_filterMap.mp h with ⟨j, hj, hij⟩
  by_cases he : i = j
  · rw [if_pos he] at hij
    cases hij
  · rw [if_neg he] at hij
    cases hmp : apply_mp (p.steps.getD i []) (p.steps.getD j []) with
    | none =>
      simp only [hmp] at hij
      cases hij
    | some q' =>
      simp only [hmp] at hij
      by_cases hq : q' = []
      · rw [if_pos hq] at hij
        cases hij
      · rw [if_neg hq] at hij
        have := Option.some.inj hij
        exact ⟨i, j, q', List.mem_range.mp hi, List.mem_range.mp hj, he, hmp, hq,
          this.symm⟩

theorem stepSound_append {steps : List Formula} {justs : List (List Char)} {n : Nat}
    (hlen : justs.length = steps.length) (hn : n < steps.length)
    (h : StepSound steps justs n) (s : Formula) (jt : List Char) :
    StepSound (steps ++ [s]) (justs ++ [jt]) n := by
  have hget : ∀ m, m < steps.length → (steps ++ [s]).getD m [] = steps.getD m [] :=
    fun m hm => getD_append_lt steps [s] [] m hm
  have hgetj : (justs ++ [jt]).getD n [] = justs.getD n [] :=
    getD_append_lt justs [jt] [] n (by omega)
  rcases h with ⟨name, template, vars, combo, hmem, hstep, hjust⟩ | h
  · left
    exact ⟨name, template, vars, combo, hmem, by rw [hget n hn]; exact hstep,
      by rw [hgetj]; exact hjust⟩
  · right
    obtain ⟨a, b, ha1, ha2, hb1, hb2, hab, hmp, hjust⟩ := h
    exact ⟨a, b, ha1, ha2, hb1, hb2, hab, by
        rw [hget (a - 1) (by omega), hget (b - 1) (by omega), hget n hn]
        exact hmp,
      by rw [hgetj]; exact hjust⟩

theorem soundProof_ext {axioms : List Proof} {p q : Proof}
    (hax : ∀ a ∈ axioms, AxProof a) (hp : SoundProof p)
    (hq : q ∈ optionA axioms p ++ optionB p) : SoundProof q := by
  obtain ⟨hlen, hsound⟩ := hp
  rcases List.mem_append.mp hq with hq | hq
  · unfold optionA at hq
    rcases List.mem_map.mp hq with ⟨a, ha, rfl⟩
    obtain ⟨name, template, vars, combo, hmem, hsteps, hjusts⟩ := hax a ha
    constructor
    · simp [hlen]
    · intro n hn
      simp only [List.length_append, List.length_singleton] at hn
      by_cases hlt : n < p.steps.length
      · exact stepSound_append hlen hlt (hsound n hlt) _ _
      · have hn' : n = p.steps.length := by omega
        subst hn'
        left
        refine ⟨name, template, vars, combo, hmem, ?_, ?_⟩
        · rw [hsteps]
          simp only [List.headI]
          exact getD_append_len p.steps _ []
        · rw [hjusts]
          simp only [List.headI]
          rw [← hlen]
          exact getD_append_len p.justs _ []
  · obtain ⟨i, j, q', hi, hj, hij, hmp, _, rfl⟩ := mem_optionB_inv hq
    constructor
    · simp [hlen]
    · intro n hn
      simp only [List.length_append, List.length_singleton] at hn
      by_cases hlt : n < p.steps.length
      · exact stepSound_append hlen hlt (hsound n hlt) _ _
      · have hn' : n = p.steps.length := by omega
        subst hn'
        right
        refine ⟨i + 1, j + 1, by omega, by omega, by omega, by omega, by omega, ?_, ?_⟩
        · have e1 : (p.steps ++ [q']).getD (i + 1 - 1) [] = p.steps.getD i [] := by
            simp only [Nat.add_sub_cancel]
            exact getD_append_lt p.steps _ [] i hi
          have e2 : (p.steps ++ [q']).getD (j + 1 - 1) [] = p.steps.getD j [] := by
            simp only [Nat.add_sub_cancel]
            exact getD_append_lt p.steps _ [] j hj
          rw [e1, e2, getD_append_len p.steps _ []]
          exact hmp
        · rw [← hlen]
          exact getD_append_len p.justs _ []

theorem buildLayer_sound {axioms prev : List Proof} {count : Nat}
    (hax : ∀ a ∈ axioms, AxProof a) (hprev : ∀ p ∈ prev, SoundProof p) :
    ∀ q ∈ (buildLayer axioms prev count).proofs, SoundProof q := by
  intro q hq
  obtain ⟨p, hp, hmem⟩ := mem_buildLayer_src hq
  exact soundProof_ext hax (hprev p hp) hmem

theorem searchLoop_sound {axioms : List Proof} (hax : ∀ a ∈ axioms, AxProof a)
    (fuel : Nat) :
    ∀ (prev : List Proof) (count : Nat), (∀ p ∈ prev, SoundProof p) →
      ∀ L ∈ (searchLoop axioms fuel prev count).1, ∀ q ∈ L, SoundProof q := by
  induction fuel with
  | zero =>
    intro prev count _ L hL
    simp [searchLoop] at hL
  | succ fuel ih =>
    intro prev count hprev L hL
    by_cases hprevnil : prev = []
    · simp [searchLoop, hprevnil] at hL
    · by_cases hst : (buildLayer axioms prev count).proofs = []
      · simp only [searchLoop, if_neg hprevnil, if_pos hst] at hL
        rcases List.mem_singleton.mp hL with rfl
        intro q hq
        exact buildLayer_sound hax hprev q hq
      · simp only [searchLoop, if_neg hprevnil, if_neg hst] at hL
        rcases List.mem_cons.mp hL with rfl | hL
        · intro q hq
          exact buildLayer_sound hax hprev q hq
        · exact ih _ _ (buildLayer_sound hax hprev) L hL

/-- **C9.** Every proof accepted at any layer is sound step by step: each
step is either an axiom instantiation (its formula is the substitution of
the schema named in its justification under the recorded assignment) or
the exact consequent returned by the Modus-Ponens engine on the two
earlier, distinct 1-indexed steps recorded in its `MP (i,j)`
justification. -/
theorem C9_soundness :
    ∀ (basis : List Formula) (maxLen : Nat) (L : List Proof) (q : Proof),
      L ∈ (runLayers basis maxLen).1 → q ∈ L → SoundProof q := by
  intro basis maxLen L q hL hq
  have hax : ∀ a ∈ (makeLayer1 basis).proofs, AxProof a :=
    fun a ha => axProof_makeLayer1 ha
  have hs1 : ∀ p ∈ (makeLayer1 basis).proofs, SoundProof p :=
    fun p hp => soundProof_of_axProof (hax p hp)
  have hrl : (runLayers basis maxLen).1 =
      (makeLayer1 basis).proofs ::
        (searchLoop (makeLayer1 basis).proofs (maxLen - 1) (makeLayer1 basis).proofs
          (makeLayer1 basis).count).1 := by
    simp only [runLayers]
  rw [hrl] at hL
  rcases List.mem_cons.mp hL with rfl | hL
  · exact hs1 q hq
  · exact searchLoop_sound hax (maxLen - 1) _ _ hs1 L hL q hq

/-- Witness for C9: the first axiom instance of the basis-`{a}` run is a
sound proof. -/
theorem C9_soundness_witness :
    SoundProof ⟨["(a → (a → a))".data], ["A1 [A=a, B=a]".data]⟩ :=
  C9_soundness ["a".data] 1 (runLayers ["a".data] 1).1.headI
    ⟨["(a → (a → a))".data], ["A1 [A=a, B=a]".data]⟩ (by decide) (by decide)

end HilbertProof
